import Mathlib

/-!
Verification of the `distinct-until-changed-immutable` repository.

The development shallowly embeds the two source files:

* `src/deep-copy.ts` — the deep clone engine (`copy`, whose inner worker is
  `handleCopy`, with the per-call visit cache `createCache`).  JavaScript
  values are modelled by `JSVal`; composite values live in an explicit
  `Heap` so that reference identity, shared sub-references and cyclic
  structures are expressible.  `handleCopy` is transcribed branch by branch
  from the source, with a fuel parameter standing in for JavaScript's
  unbounded recursion (the termination theorem shows the chosen fuel never
  runs out on well-formed heaps).

* `src/distinct-until-changed-immutable.ts` — the stateful filter.
  `stepNext` transcribes `DistinctUntilChangedSubscriber._next`; `runNext`
  folds it over a finite upstream sequence under the reactive stream
  contract (a terminal error stops delivery).

The default deep-equality comparator lives in `src/deep-equals.ts`, which
is imported by the filter but is not part of the repository snapshot; it is
modelled from the specification (§4.1), see `eqVal`/`deepEqual` below.
-/

/-- Heap addresses: object identity of a composite JavaScript value. -/
abbrev Addr := Nat

/-- JavaScript values as seen by `handleCopy`'s first test
`!o || typeof o !== 'object'`: every non-reference value (primitives,
`null`/`undefined`, symbols and functions) is terminal, and composite
values are references into the heap. -/
inductive JSVal where
  | undef
  | jnull
  | num (n : Int)
  | str (s : String)
  | boolV (b : Bool)
  | sym (id : Nat)
  | func (id : Nat)
  | ref (a : Addr)
deriving DecidableEq

/-- Heap objects, one constructor per branch of `handleCopy`'s dispatch:
plain objects (`constructor === Object`), arrays, dates, regexps, maps,
sets, files, dataviews/typed views, array buffers, the four pass-through
kinds (promise-likes, errors, weak containers) and the custom-constructor
fallback. -/
inductive JSObj where
  | plain (fields : List (String × JSVal))
  | arr (elems : List JSVal)
  | date (time : Int)
  | regexp (source flags : String) (lastIndex : Int)
  | jsMap (entries : List (JSVal × JSVal))
  | jsSet (elems : List JSVal)
  | file (nm ty : String) (content : List Nat)
  | dataview (bytes : List Nat)
  | buffer (bytes : List Nat)
  | thenable
  | errObj (msg : String)
  | weakMap
  | weakSet
  | custom (ctorId : Nat) (fields : List (String × JSVal))
deriving DecidableEq

/-- A heap: objects indexed by address (their identity). -/
structure Heap where
  objs : List JSObj
deriving DecidableEq

def Heap.lookup (h : Heap) (a : Addr) : Option JSObj := h.objs.get? a

def Heap.update (h : Heap) (a : Addr) (o : JSObj) : Heap := ⟨h.objs.set a o⟩

/-- `h'` extends `h`: every address of `h` denotes the same object in `h'`
(new objects may have been allocated on top). -/
def Heap.Extends (h' h : Heap) : Prop := ∃ t, h'.objs = h.objs ++ t

/-- Does the value hold a reference below the given bound?  (Primitives
trivially do.) -/
def JSVal.refBelow : JSVal → Nat → Bool
  | .ref a, n => decide (a < n)
  | _, _ => true

/-- All values directly contained in an object (for maps this includes the
keys, which are JavaScript values as well). -/
def JSObj.childVals : JSObj → List JSVal
  | .plain fs => fs.map Prod.snd
  | .arr xs => xs
  | .jsMap es => es.map Prod.fst ++ es.map Prod.snd
  | .jsSet xs => xs
  | .custom _ fs => fs.map Prod.snd
  | _ => []

def keysNodupB {κ : Type} [DecidableEq κ] (l : List (κ × JSVal)) : Bool :=
  decide (l.map Prod.fst).Nodup

/-- Object well-formedness at heap size `n`: all contained references are
valid, and key lists are duplicate-free (JavaScript objects and `Map`s
cannot carry duplicate own keys). -/
def JSObj.wfB (o : JSObj) (n : Nat) : Bool :=
  o.childVals.all (fun v => v.refBelow n) &&
  (match o with
   | .plain fs => keysNodupB fs
   | .custom _ fs => keysNodupB fs
   | .jsMap es => keysNodupB es
   | _ => true)

/-- Heap well-formedness: every object is well formed. -/
def Heap.wfB (h : Heap) : Bool := h.objs.all (fun o => o.wfB h.objs.length)

/-! ## The equality engine

`src/deep-equals.ts` is imported by the filter but missing from the
repository snapshot, so the definitions below are modelled from the
specification, §4.1: primitives by value, composites of differing dynamic
type unequal, plain/custom objects by own-key structural comparison,
arrays positionally, dates by instant, regexps by source and flags,
maps/sets by size and member-wise recursive equality (map keys by
container semantics), buffers bytewise, and cycle safety through a pair of
per-call visited-node caches (one per operand): a value already visited on
both sides is treated as equal to itself. -/

/-- Positional (array) equality. -/
def eqList (g : JSVal → JSVal → Bool) : List JSVal → List JSVal → Bool
  | [], [] => true
  | x :: xs, y :: ys => g x y && eqList g xs ys
  | _, _ => false

/-- Look a key up in a keyed collection (object fields / map entries). -/
def lookupKeyed {κ : Type} [DecidableEq κ] (l : List (κ × JSVal)) (k : κ) :
    Option JSVal :=
  match l.find? (fun p => decide (p.1 = k)) with
  | some p => some p.2
  | none => none

/-- Keyed equality: same size, and every key of the left collection is
present on the right with recursively-equal value. -/
def eqKeyed {κ : Type} [DecidableEq κ] (g : JSVal → JSVal → Bool)
    (a b : List (κ × JSVal)) : Bool :=
  decide (a.length = b.length) &&
  a.all (fun p =>
    match lookupKeyed b p.1 with
    | some y => g p.2 y
    | none => false)

/-- Set equality: same size and every member of the left set has a
recursively-equal partner on the right. -/
def eqSetElems (g : JSVal → JSVal → Bool) (a b : List JSVal) : Bool :=
  decide (a.length = b.length) && a.all (fun x => b.any (fun y => g x y))

/-- Structural comparison of two heap objects, all recursive comparisons
delegated to `g`. -/
def eqObj (g : JSVal → JSVal → Bool) : JSObj → JSObj → Bool
  | .plain fa, .plain fb => eqKeyed g fa fb
  | .arr xs, .arr ys => eqList g xs ys
  | .date s, .date t => decide (s = t)
  | .regexp s1 f1 _, .regexp s2 f2 _ => decide (s1 = s2) && decide (f1 = f2)
  | .jsMap ea, .jsMap eb => eqKeyed g ea eb
  | .jsSet xs, .jsSet ys => eqSetElems g xs ys
  | .file n1 t1 c1, .file n2 t2 c2 =>
      decide (n1 = n2) && decide (t1 = t2) && decide (c1 = c2)
  | .dataview b1, .dataview b2 => decide (b1 = b2)
  | .buffer b1, .buffer b2 => decide (b1 = b2)
  | .thenable, .thenable => true
  | .errObj m1, .errObj m2 => decide (m1 = m2)
  | .weakMap, .weakMap => true
  | .weakSet, .weakSet => true
  | .custom c1 fa, .custom c2 fb => decide (c1 = c2) && eqKeyed g fa fb
  | _, _ => false

/-- Modelled from the spec: the recursive worker of the missing
`src/deep-equals.ts` equality engine (§4.1).  `A` and `B` are the two
per-operand visited caches; a pair of composites both already visited is
treated as equal to itself.  The fuel only bounds the recursion depth; the
top-level wrapper `deepEqual` supplies enough for the cache mechanism to
terminate on any input. -/
def eqVal (h : Heap) : Nat → List Addr → List Addr → JSVal → JSVal → Bool
  | 0, _, _, _, _ => false
  | fuel + 1, A, B, x, y =>
    match x, y with
    | .ref a, .ref b =>
        if A.contains a && B.contains b then true
        else
          match h.lookup a, h.lookup b with
          | some oa, some ob => eqObj (eqVal h fuel (a :: A) (b :: B)) oa ob
          | _, _ => false
    | .ref _, _ => false
    | _, .ref _ => false
    | x, y => decide (x = y)

/-- Modelled from the spec: the `equal(a, b)` entry point of the missing
`src/deep-equals.ts` (§4.1), cycle-safe via the visited caches. -/
def deepEqual (h : Heap) (x y : JSVal) : Bool :=
  eqVal h (2 * h.objs.length + 2) [] [] x y

/-! ## The clone engine (`src/deep-copy.ts`) -/

/-- The state threaded through one `copy` call: the heap (clones are
allocated into it, so sharing between clone and original is observable)
and the visit cache created by `createCache` — note the source's cache is
a `WeakSet` (`add`/`has` only), not a map from original to clone. -/
structure CopySt where
  heap : Heap
  cache : List Addr
deriving DecidableEq

def addCache (st : CopySt) (a : Addr) : CopySt := { st with cache := a :: st.cache }

/-- Allocate a fresh object, returning its reference. -/
def allocInSt (st : CopySt) (o : JSObj) : JSVal × CopySt :=
  (.ref st.heap.objs.length, { st with heap := ⟨st.heap.objs ++ [o]⟩ })

/-- Copy the value components of a keyed list (the `for key in object`
loop of `getObjectCloneLoose`, and the `Map.forEach` loop — map keys are
passed to `clone.set` unchanged). -/
def copySnds {κ : Type} (f : JSVal → CopySt → Option (JSVal × CopySt)) :
    List (κ × JSVal) → CopySt → Option (List (κ × JSVal) × CopySt)
  | [], st => some ([], st)
  | (k, v) :: rest, st =>
    match f v st with
    | none => none
    | some (v', st') =>
      match copySnds f rest st' with
      | none => none
      | some (rest', st'') => some ((k, v') :: rest', st'')

/-- Copy each element of a list (array index loop / `Set.forEach`). -/
def copyList (f : JSVal → CopySt → Option (JSVal × CopySt)) :
    List JSVal → CopySt → Option (List JSVal × CopySt)
  | [], st => some ([], st)
  | v :: rest, st =>
    match f v st with
    | none => none
    | some (v', st') =>
      match copyList f rest st' with
      | none => none
      | some (rest', st'') => some (v' :: rest', st'')

/-- `typeof o.then === 'function'` for an object whose own fields are
known (the promise-like test of the pass-through branch). -/
def hasOwnThen (fields : List (String × JSVal)) : Bool :=
  fields.any (fun kv =>
    decide (kv.1 = "then") &&
    (match kv.2 with | .func _ => true | _ => false))

/-- The type-dispatch chain of `handleCopy` (everything after the early
return), one case per branch and in source order: plain objects
(`constructor === Object`), arrays, dates, regexps, maps, sets, files,
dataviews, array buffers, the pass-through test (promise-like / `Error` /
`WeakMap` / `WeakSet`), and the custom-constructor fallback (which
re-applies the promise-like test: `typeof o.then === 'function'` sees own
fields of a constructed object, so such objects reach the pass-through
return before the fallback clone).  A cached composite is returned as the
*original* reference at the call site (the cache is a `WeakSet`, it
stores no clones).  The strict/loose distinction (`isStrict`) only
affects property descriptors and non-enumerable properties, which are
below the granularity of this model, so both modes copy the same fields;
the parameter is kept for interface fidelity. -/
def handleObj (s : Bool) (recur : JSVal → CopySt → Option (JSVal × CopySt))
    (a : Addr) (o : JSObj) (st : CopySt) : Option (JSVal × CopySt) :=
  match o with
  | .plain fields =>
    (match copySnds recur fields (addCache st a) with
     | none => none
     | some (fields', st') => some (allocInSt st' (.plain fields')))
  | .arr elems =>
    (match copyList recur elems (addCache st a) with
     | none => none
     | some (elems', st') => some (allocInSt st' (.arr elems')))
  | .date t => some (allocInSt st (.date t))
  | .regexp source flags li => some (allocInSt st (.regexp source flags li))
  | .jsMap entries =>
    (match copySnds recur entries (addCache st a) with
     | none => none
     | some (entries', st') => some (allocInSt st' (.jsMap entries')))
  | .jsSet elems =>
    (match copyList recur elems (addCache st a) with
     | none => none
     | some (elems', st') => some (allocInSt st' (.jsSet elems')))
  | .file nm ty content => some (allocInSt (addCache st a) (.file nm ty content))
  | .dataview bytes => some (allocInSt st (.dataview bytes))
  | .buffer bytes => some (allocInSt st (.buffer bytes))
  | .thenable => some (.ref a, st)
  | .errObj _ => some (.ref a, st)
  | .weakMap => some (.ref a, st)
  | .weakSet => some (.ref a, st)
  | .custom c fields =>
    if hasOwnThen fields then some (.ref a, st)
    else
      (match copySnds recur fields (addCache st a) with
       | none => none
       | some (fields', st') => some (allocInSt st' (.custom c fields')))

/-- Transcription of `handleCopy` from `src/deep-copy.ts`: the early
return `!o || typeof o !== 'object' || cache.has(o)` (non-objects and
already-visited composites are returned as-is), then the dispatch of
`handleObj`. -/
def handleCopy (s : Bool) : Nat → JSVal → CopySt → Option (JSVal × CopySt)
  | 0, _, _ => none
  | fuel + 1, v, st =>
    match v with
    | .ref a =>
      if st.cache.contains a then some (v, st)
      else
        match st.heap.lookup a with
        | none => some (v, st)
        | some o => handleObj s (handleCopy s fuel) a o st
    | _ => some (v, st)

/-- `copy(object, options)`: runs `handleCopy` with a fresh cache
(`createCache()`).  The fuel `|heap| + 2` bounds the recursion depth; the
termination theorem below shows it is never exhausted on well-formed
heaps, matching the source's guaranteed termination through the cache. -/
def copy (s : Bool) (h : Heap) (v : JSVal) : Option (JSVal × Heap) :=
  match handleCopy s (h.objs.length + 2) v ⟨h, []⟩ with
  | none => none
  | some (v', st) => some (v', st.heap)

/-- Number of heap addresses not yet visited by either cache: strictly
decreases at every recursive step of `eqVal` that is not a cache hit. -/
def eqMeasure (H : Heap) (A B : List Addr) : Nat :=
  ((Finset.range H.objs.length).filter (fun a => a ∉ A)).card +
  ((Finset.range H.objs.length).filter (fun a => a ∉ B)).card

/-- `EqPost h₁ v' v`: in every well-formed extension of `h₁`, the
equality engine accepts the pair `(v', v)` (with any caches and any
sufficient fuel).  This is the invariant that makes clone-versus-original
deep equality compositional. -/
def EqPost (h₁ : Heap) (v' v : JSVal) : Prop :=
  ∀ H : Heap, H.Extends h₁ → H.wfB = true →
    ∀ fuel A B, eqMeasure H A B < fuel → eqVal H fuel A B v' v = true

/-- The state invariant threaded through one `copy` call over base heap
`h₀`: the heap only grew, stayed well formed, and the visit cache is a
duplicate-free set of original addresses. -/
structure CopyInv (h₀ : Heap) (st : CopySt) : Prop where
  ext : st.heap.Extends h₀
  wf : st.heap.wfB = true
  nodup : st.cache.Nodup
  bound : ∀ a ∈ st.cache, a < h₀.objs.length

/-- Postcondition of one `handleCopy` call: the heap only grows, the
invariant is preserved, the cache only grows (by consing), the result is a
valid value of the final heap, and — the centrepiece — the result is
accepted as deep-equal to the argument by the equality engine in every
well-formed extension of the final heap. -/
structure CopyPost (h₀ : Heap) (st : CopySt) (v : JSVal) (v' : JSVal)
    (st' : CopySt) : Prop where
  ext : st'.heap.Extends st.heap
  inv : CopyInv h₀ st'
  cacheSuffix : st.cache.IsSuffix st'.cache
  rb : v'.refBelow st'.heap.objs.length = true
  eqp : EqPost st'.heap v' v

/-! ## The distinct filter (`src/distinct-until-changed-immutable.ts`) -/

/-- Outcome of one `_next` call as seen downstream: a forwarded value, a
silent drop, or a terminal error. -/
inductive StepOut (α E : Type) where
  | emit (v : α)
  | skip
  | halt (e : E)
deriving DecidableEq

/-- The three callables the subscriber composes, with an explicit state
`H` threaded through (the heap, in the JavaScript instantiation) so that
throwing (`Except.error`) and in-place mutation are expressible.
`select` is the resolved `keySelector ? keySelector(value) : value`,
`comp` the active comparator (caller-supplied, else the default deep
equality), `clone` the `copy` call on accepted keys (it cannot throw). -/
structure DistinctOps (H α E : Type) where
  select : H → α → (Except E α) × H
  comp : H → α → α → (Except E Bool) × H
  clone : H → α → α × H

/-- The subscriber's per-subscription state: `hasKey` and the retained
`key` (like the `undefined`-initialised private field, meaningless until
the first acceptance). -/
structure DState (α : Type) where
  hasKey : Bool
  key : α
deriving DecidableEq

/-- Transcription of `DistinctUntilChangedSubscriber._next`: extract the
key, propagating a throw as a downstream terminal error that suppresses
the value; when a Retained Key exists consult the comparator as
`compare(this.key, key)` — retained key first, freshly extracted key
second — propagating a throw the same way; a `true` result drops the
value with no state change, otherwise store `copy(key)` as the new
Retained Key and forward the original value. -/
def stepNext {H α E : Type} (ops : DistinctOps H α E) (st : DState α)
    (h : H) (v : α) : DState α × H × StepOut α E :=
  match ops.select h v with
  | (.error e, h1) => (st, h1, .halt e)
  | (.ok key, h1) =>
    if st.hasKey then
      match ops.comp h1 st.key key with
      | (.error e, h2) => (st, h2, .halt e)
      | (.ok result, h2) =>
        if result then (st, h2, .skip)
        else
          ((⟨true, (ops.clone h2 key).1⟩ : DState α), (ops.clone h2 key).2, .emit v)
    else
      ((⟨true, (ops.clone h1 key).1⟩ : DState α), (ops.clone h1 key).2, .emit v)

/-- Fold the subscriber over a finite upstream prefix under the reactive
stream contract: a downstream terminal error stops all further
delivery. -/
def runNext {H α E : Type} (ops : DistinctOps H α E) :
    DState α → H → List α → List α × DState α × H × Option E
  | st, h, [] => ([], st, h, none)
  | st, h, v :: vs =>
    match stepNext ops st h v with
    | (st1, h1, .emit w) =>
      let r := runNext ops st1 h1 vs
      (w :: r.1, r.2)
    | (st1, h1, .skip) => runNext ops st1 h1 vs
    | (st1, h1, .halt e) => ([], st1, h1, some e)

/-- A stream's terminal signal. -/
inductive Terminal (E : Type) where
  | complete
  | errored (e : E)
deriving DecidableEq

/-- The downstream observation over a whole finite stream: the emitted
values, then the terminal signal (the source's, unless the filter itself
errored first). -/
def runStream {H α E : Type} (ops : DistinctOps H α E) (st : DState α)
    (h : H) (vs : List α) (t : Terminal E) : List α × Terminal E :=
  ((runNext ops st h vs).1,
   match (runNext ops st h vs).2.2.2 with
   | some e => Terminal.errored e
   | none => t)

/-! ## Instantiations used by the claims -/

/-- `copy(key)` as called by the subscriber (no options, i.e. loose
mode), wrapped to a total function: the `none` fallback is dead code on
well-formed heaps by `handleCopy_spec`. -/
def jsClone (s : Bool) (h : Heap) (k : JSVal) : JSVal × Heap :=
  match copy s h k with
  | some (k2, h2) => (k2, h2)
  | none => (k, h)

/-- The operator's defaults: no key selector (identity projection), the
default comparator `deepEqual` (never throws), and `copy` as the clone. -/
def jsOps : DistinctOps Heap JSVal Unit :=
  { select := fun h v => (.ok v, h)
  , comp := fun h x y => (.ok (deepEqual h x y), h)
  , clone := jsClone false }

/-- A harness instantiation over plain integers with a pure caller
comparator: no key selector, and cloning an integer is the identity
(see the primitive pass-through of `copy`). -/
def intOps (cmp : Int → Int → Bool) : DistinctOps Unit Int Unit :=
  { select := fun h v => (.ok v, h)
  , comp := fun h x y => (.ok (cmp x y), h)
  , clone := fun h k => (k, h) }

/-- A harness instantiation whose key selector throws on the value 42. -/
def throwOps : DistinctOps Unit Int Nat :=
  { select := fun h v => ((if v = 42 then .error 7 else .ok v), h)
  , comp := fun h x y => (.ok (decide (x = y)), h)
  , clone := fun h k => (k, h) }

/-- The caller-supplied comparator `(x, y) => y % 2 === 0` over the
JavaScript value model, with the operator still cloning accepted keys. -/
def evenSndOps : DistinctOps Heap JSVal Unit :=
  { select := fun h v => (.ok v, h)
  , comp := fun h x y =>
      ((.ok (match y with | .num n => decide (n % 2 = 0) | _ => false)), h)
  , clone := jsClone false }

/-- Increment the `n` field of a one-field plain object (harness for the
mutating-comparator scenario of the implicit-claim check). -/
def bumpN : JSObj → JSObj
  | .plain [(k, .num n)] => .plain [(k, .num (n + 1))]
  | o => o

/-- A comparator that mutates its first argument in place (bumping its
`n` field) and reports "duplicate". -/
def mutComp (h : Heap) (x y : JSVal) : (Except Unit Bool) × Heap :=
  match x with
  | .ref a =>
    (match h.lookup a with
     | some o => (.ok true, h.update a (bumpN o))
     | none => (.ok true, h))
  | _ => (.ok true, h)

def mutOps : DistinctOps Heap JSVal Unit :=
  { select := fun h v => (.ok v, h)
  , comp := mutComp
  , clone := jsClone false }

/-- Is the value a composite (heap) reference?  `handleCopy` returns
anything else unchanged. -/
def JSVal.isObjRef : JSVal → Bool
  | .ref _ => true
  | _ => false

/-- The object kinds on which the pass-through branch of `handleCopy`
fires (no earlier typed branch captures them): promise-likes, errors,
weak containers, and constructed objects with a callable own `then`. -/
def JSObj.isPassKind : JSObj → Bool
  | .thenable => true
  | .errObj _ => true
  | .weakMap => true
  | .weakSet => true
  | .custom _ fs => hasOwnThen fs
  | _ => false

/-- A heap with a single self-cyclic plain object. -/
def hCyc : Heap := ⟨[.plain [("self", .ref 0)]]⟩

/-- A heap with a single plain object with a callable own `then`
(a promise-like plain object). -/
def hThen : Heap := ⟨[.plain [("then", .func 0)]]⟩

/-- A heap with a single mutable one-field plain object. -/
def hMut : Heap := ⟨[.plain [("n", .num 0)]]⟩

/-! ## Heap and well-formedness infrastructure -/

theorem heapExtends_refl (h : Heap) : h.Extends h := ⟨[], (List.append_nil _).symm⟩

theorem heapExtends_trans {h₁ h₂ h₃ : Heap} (h21 : h₂.Extends h₁)
    (h32 : h₃.Extends h₂) : h₃.Extends h₁ := by
  obtain ⟨t1, e1⟩ := h21
  obtain ⟨t2, e2⟩ := h32
  exact ⟨t1 ++ t2, by rw [e2, e1, List.append_assoc]⟩

theorem heapExtends_length_le {h' h : Heap} (he : h'.Extends h) :
    h.objs.length ≤ h'.objs.length := by
  obtain ⟨t, e⟩ := he
  rw [e, List.length_append]
  omega

theorem heapExtends_snoc (h : Heap) (o : JSObj) :
    (⟨h.objs ++ [o]⟩ : Heap).Extends h := ⟨[o], rfl⟩

theorem lookup_lt {h : Heap} {a : Addr} {o : JSObj} (hl : h.lookup a = some o) :
    a < h.objs.length := by
  rcases List.get?_eq_some.mp hl with ⟨hlt, _⟩
  exact hlt

theorem heapExtends_lookup {h' h : Heap} {a : Addr} {o : JSObj}
    (he : h'.Extends h) (hl : h.lookup a = some o) : h'.lookup a = some o := by
  obtain ⟨t, e⟩ := he
  have ha : a < h.objs.length := lookup_lt hl
  unfold Heap.lookup at hl ⊢
  rw [e, List.get?_append ha]
  exact hl

theorem lookup_of_lt {h : Heap} {a : Addr} (ha : a < h.objs.length) :
    h.lookup a = some (h.objs.get ⟨a, ha⟩) := List.get?_eq_get ha

theorem lookup_snoc_new (h : Heap) (o : JSObj) :
    (⟨h.objs ++ [o]⟩ : Heap).lookup h.objs.length = some o :=
  List.get?_concat_length _ _

theorem wfB_lookup {h : Heap} {a : Addr} {o : JSObj} (hw : h.wfB = true)
    (hl : h.lookup a = some o) : o.wfB h.objs.length = true :=
  List.all_eq_true.mp hw o (List.get?_mem hl)

theorem refBelow_mono {v : JSVal} {n m : Nat} (hnm : n ≤ m)
    (hv : v.refBelow n = true) : v.refBelow m = true := by
  cases v
  case ref a =>
    have h1 : a < n := of_decide_eq_true hv
    exact decide_eq_true (lt_of_lt_of_le h1 hnm)
  all_goals exact hv

theorem jsObjWf_mono {o : JSObj} {n m : Nat} (hnm : n ≤ m)
    (hw : o.wfB n = true) : o.wfB m = true := by
  unfold JSObj.wfB at hw ⊢
  rw [Bool.and_eq_true] at hw ⊢
  refine ⟨?_, hw.2⟩
  rw [List.all_eq_true] at hw ⊢
  exact fun v hv => refBelow_mono hnm (hw.1 v hv)

theorem heapWf_snoc {h : Heap} {o : JSObj} (hw : h.wfB = true)
    (ho : o.wfB (h.objs.length + 1) = true) :
    (⟨h.objs ++ [o]⟩ : Heap).wfB = true := by
  unfold Heap.wfB at hw ⊢
  simp only [List.length_append, List.length_singleton, List.all_eq_true,
    List.mem_append, List.mem_singleton] at hw ⊢
  rintro x (hx | rfl)
  · exact jsObjWf_mono (by omega) (hw x hx)
  · exact ho

theorem wfB_plain {fs : List (String × JSVal)} {n : Nat}
    (h : (JSObj.plain fs).wfB n = true) :
    (∀ p ∈ fs, (p.2 : JSVal).refBelow n = true) ∧ (fs.map Prod.fst).Nodup := by
  unfold JSObj.wfB at h
  rw [Bool.and_eq_true] at h
  obtain ⟨h1, h2⟩ := h
  simp only [JSObj.childVals, List.all_eq_true, List.mem_map] at h1
  simp only [keysNodupB, decide_eq_true_eq] at h2
  exact ⟨fun p hp => h1 _ ⟨p, hp, rfl⟩, h2⟩

theorem wfB_custom {c : Nat} {fs : List (String × JSVal)} {n : Nat}
    (h : (JSObj.custom c fs).wfB n = true) :
    (∀ p ∈ fs, (p.2 : JSVal).refBelow n = true) ∧ (fs.map Prod.fst).Nodup := by
  unfold JSObj.wfB at h
  rw [Bool.and_eq_true] at h
  obtain ⟨h1, h2⟩ := h
  simp only [JSObj.childVals, List.all_eq_true, List.mem_map] at h1
  simp only [keysNodupB, decide_eq_true_eq] at h2
  exact ⟨fun p hp => h1 _ ⟨p, hp, rfl⟩, h2⟩

theorem wfB_jsMap {es : List (JSVal × JSVal)} {n : Nat}
    (h : (JSObj.jsMap es).wfB n = true) :
    (∀ p ∈ es, (p.1 : JSVal).refBelow n = true ∧ (p.2 : JSVal).refBelow n = true) ∧
      (es.map Prod.fst).Nodup := by
  unfold JSObj.wfB at h
  rw [Bool.and_eq_true] at h
  obtain ⟨h1, h2⟩ := h
  simp only [JSObj.childVals, List.all_eq_true, List.mem_append, List.mem_map] at h1
  simp only [keysNodupB, decide_eq_true_eq] at h2
  exact ⟨fun p hp => ⟨h1 _ (Or.inl ⟨p, hp, rfl⟩), h1 _ (Or.inr ⟨p, hp, rfl⟩)⟩, h2⟩

theorem wfB_arr {xs : List JSVal} {n : Nat} (h : (JSObj.arr xs).wfB n = true) :
    ∀ x ∈ xs, (x : JSVal).refBelow n = true := by
  unfold JSObj.wfB at h
  rw [Bool.and_eq_true] at h
  obtain ⟨h1, -⟩ := h
  simpa only [JSObj.childVals, List.all_eq_true] using h1

theorem wfB_jsSet {xs : List JSVal} {n : Nat} (h : (JSObj.jsSet xs).wfB n = true) :
    ∀ x ∈ xs, (x : JSVal).refBelow n = true := by
  unfold JSObj.wfB at h
  rw [Bool.and_eq_true] at h
  obtain ⟨h1, -⟩ := h
  simpa only [JSObj.childVals, List.all_eq_true] using h1

theorem contains_mem {l : List Addr} {a : Addr} : l.contains a = true ↔ a ∈ l :=
  List.elem_iff

/-! ## The termination measure of the equality engine -/

theorem card_filter_cons_le (N : Nat) (A : List Addr) (a : Addr) :
    ((Finset.range N).filter (fun x => x ∉ a :: A)).card ≤
      ((Finset.range N).filter (fun x => x ∉ A)).card := by
  apply Finset.card_le_card
  intro x hx
  rw [Finset.mem_filter] at hx ⊢
  refine ⟨hx.1, fun hmem => hx.2 (List.mem_cons_of_mem _ hmem)⟩

theorem card_filter_cons_lt (N : Nat) (A : List Addr) (a : Addr)
    (haN : a < N) (haA : a ∉ A) :
    ((Finset.range N).filter (fun x => x ∉ a :: A)).card <
      ((Finset.range N).filter (fun x => x ∉ A)).card := by
  apply Finset.card_lt_card
  constructor
  · intro x hx
    rw [Finset.mem_filter] at hx ⊢
    refine ⟨hx.1, fun hmem => hx.2 (List.mem_cons_of_mem _ hmem)⟩
  · intro hsup
    have ha : a ∈ (Finset.range N).filter (fun x => x ∉ A) := by
      rw [Finset.mem_filter, Finset.mem_range]
      exact ⟨haN, haA⟩
    have := hsup ha
    rw [Finset.mem_filter] at this
    exact this.2 (List.mem_cons_self a A)

theorem eqMeasure_lt {H : Heap} {A B : List Addr} {a b : Addr}
    (haN : a < H.objs.length) (hbN : b < H.objs.length)
    (hnot : ¬(a ∈ A ∧ b ∈ B)) :
    eqMeasure H (a :: A) (b :: B) < eqMeasure H A B := by
  unfold eqMeasure
  by_cases ha : a ∈ A
  · have hb : b ∉ B := fun hb => hnot ⟨ha, hb⟩
    exact Nat.add_lt_add_of_le_of_lt (card_filter_cons_le _ _ _)
      (card_filter_cons_lt _ _ _ hbN hb)
  · exact Nat.add_lt_add_of_lt_of_le (card_filter_cons_lt _ _ _ haN ha)
      (card_filter_cons_le _ _ _)

theorem eqMeasure_top (H : Heap) : eqMeasure H [] [] < 2 * H.objs.length + 2 := by
  unfold eqMeasure
  have h1 : ((Finset.range H.objs.length).filter (fun a => a ∉ ([] : List Addr))).card ≤
      H.objs.length := by
    calc ((Finset.range H.objs.length).filter (fun a => a ∉ ([] : List Addr))).card
        ≤ (Finset.range H.objs.length).card := Finset.card_filter_le _ _
      _ = H.objs.length := Finset.card_range _
  omega

/-! ## Assembly lemmas for the equality engine -/

theorem eqVal_ref (H : Heap) (f : Nat) (A B : List Addr) (a b : Addr) :
    eqVal H (f + 1) A B (.ref a) (.ref b) =
      if A.contains a && B.contains b then true
      else
        match H.lookup a, H.lookup b with
        | some oa, some ob => eqObj (eqVal H f (a :: A) (b :: B)) oa ob
        | _, _ => false := rfl

theorem eqList_of_forall₂ {g : JSVal → JSVal → Bool} :
    ∀ {l' l : List JSVal}, List.Forall₂ (fun x y => g x y = true) l' l →
      eqList g l' l = true := by
  intro l' l hf
  induction hf with
  | nil => rfl
  | cons h _ ih => simp [eqList, h, ih]

theorem forall₂_keys_eq {κ : Type} {R : JSVal → JSVal → Prop} :
    ∀ {l' l : List (κ × JSVal)},
      List.Forall₂ (fun p q => p.1 = q.1 ∧ R p.2 q.2) l' l →
        l'.map Prod.fst = l.map Prod.fst := by
  intro l' l hf
  induction hf with
  | nil => rfl
  | cons h _ ih => simp [h.1, ih]

theorem lookupKeyed_cons_self {κ : Type} [DecidableEq κ] {k k' : κ}
    (he : k' = k) (y : JSVal) (l : List (κ × JSVal)) :
    lookupKeyed ((k', y) :: l) k = some y := by
  unfold lookupKeyed
  rw [List.find?_cons]
  simp [he]

theorem lookupKeyed_cons_ne {κ : Type} [DecidableEq κ] {k k' : κ}
    (hne : k' ≠ k) (y : JSVal) (l : List (κ × JSVal)) :
    lookupKeyed ((k', y) :: l) k = lookupKeyed l k := by
  unfold lookupKeyed
  rw [List.find?_cons]
  simp [hne]

theorem eqKeyed_lookup_aux {κ : Type} [DecidableEq κ] {g : JSVal → JSVal → Bool} :
    ∀ {l' l : List (κ × JSVal)}, (l.map Prod.fst).Nodup →
      List.Forall₂ (fun p q => p.1 = q.1 ∧ g p.2 q.2 = true) l' l →
        ∀ p ∈ l',
          (match lookupKeyed l p.1 with
           | some y => g p.2 y
           | none => false) = true := by
  intro l' l hnd hf
  induction hf with
  | nil => intro p hp; cases hp
  | @cons p₀ q₀ lt' lt h htail ih =>
    intro p hp
    obtain ⟨qk, qv⟩ := q₀
    rcases List.mem_cons.mp hp with rfl | hpm
    · rw [lookupKeyed_cons_self (h.1).symm]
      exact h.2
    · have hne : qk ≠ p.1 := by
        have hkeys := forall₂_keys_eq
          (R := fun x y => g x y = true) htail
        have hpk : p.1 ∈ lt.map Prod.fst := by
          rw [← hkeys]
          exact List.mem_map.mpr ⟨p, hpm, rfl⟩
        rw [List.map_cons, List.nodup_cons] at hnd
        intro he
        exact hnd.1 (he ▸ hpk)
      rw [lookupKeyed_cons_ne hne]
      exact ih (by rw [List.map_cons, List.nodup_cons] at hnd; exact hnd.2) p hpm

theorem eqKeyed_of_forall₂ {κ : Type} [DecidableEq κ] {g : JSVal → JSVal → Bool}
    {l' l : List (κ × JSVal)} (hnd : (l.map Prod.fst).Nodup)
    (hf : List.Forall₂ (fun p q => p.1 = q.1 ∧ g p.2 q.2 = true) l' l) :
    eqKeyed g l' l = true := by
  unfold eqKeyed
  rw [Bool.and_eq_true, decide_eq_true_eq, List.all_eq_true]
  exact ⟨hf.length_eq, eqKeyed_lookup_aux hnd hf⟩

theorem forall₂_exists_mem {R : JSVal → JSVal → Prop} :
    ∀ {l' l : List JSVal}, List.Forall₂ R l' l →
      ∀ x ∈ l', ∃ y ∈ l, R x y := by
  intro l' l hf
  induction hf with
  | nil => intro x hx; cases hx
  | cons h _ ih =>
    intro x hx
    rcases List.mem_cons.mp hx with rfl | hxm
    · exact ⟨_, List.mem_cons_self _ _, h⟩
    · obtain ⟨y, hy, hR⟩ := ih x hxm
      exact ⟨y, List.mem_cons_of_mem _ hy, hR⟩

theorem eqSet_of_forall₂ {g : JSVal → JSVal → Bool} {l' l : List JSVal}
    (hf : List.Forall₂ (fun x y => g x y = true) l' l) :
    eqSetElems g l' l = true := by
  unfold eqSetElems
  rw [Bool.and_eq_true, decide_eq_true_eq, List.all_eq_true]
  refine ⟨hf.length_eq, fun x hx => ?_⟩
  obtain ⟨y, hy, hg⟩ := forall₂_exists_mem hf x hx
  rw [List.any_eq_true]
  exact ⟨y, hy, hg⟩

/-! ## Cycle-safe reflexivity of the equality engine -/

theorem eqVal_self (H : Heap) (hwf : H.wfB = true) :
    ∀ fuel A B x, x.refBelow H.objs.length = true → eqMeasure H A B < fuel →
      eqVal H fuel A B x x = true := by
  intro fuel
  induction fuel using Nat.strong_induction_on with
  | _ fuel ih =>
    match fuel with
    | 0 =>
      intro A B x _ hm
      exact absurd hm (Nat.not_lt_zero _)
    | f + 1 =>
      intro A B x hx hm
      match x with
      | .undef | .jnull | .num _ | .str _ | .boolV _ | .sym _ | .func _ =>
        simp [eqVal]
      | .ref a =>
        have haN : a < H.objs.length := by
          simpa [JSVal.refBelow] using hx
        obtain ⟨o, ho⟩ : ∃ o, H.lookup a = some o := ⟨_, lookup_of_lt haN⟩
        rw [eqVal_ref]
        by_cases hc : (A.contains a && B.contains a) = true
        · rw [if_pos hc]
        · rw [if_neg hc, ho]
          have hnot : ¬(a ∈ A ∧ a ∈ B) := by
            rw [Bool.and_eq_true, contains_mem, contains_mem] at hc
            exact hc
          have hm2 : eqMeasure H (a :: A) (a :: B) < f := by
            have h1 := eqMeasure_lt haN haN hnot
            omega
          have hwo : o.wfB H.objs.length = true := wfB_lookup hwf ho
          have hrec : ∀ y : JSVal, y.refBelow H.objs.length = true →
              eqVal H f (a :: A) (a :: B) y y = true := by
            intro y hy
            exact ih f (Nat.lt_succ_self f) (a :: A) (a :: B) y hy hm2
          cases o with
          | plain fs =>
            exact eqKeyed_of_forall₂ (wfB_plain hwo).2 (List.forall₂_same.mpr
              (fun p hp => ⟨rfl, hrec p.2 ((wfB_plain hwo).1 p hp)⟩))
          | arr xs =>
            exact eqList_of_forall₂ (List.forall₂_same.mpr
              (fun y hy => hrec y (wfB_arr hwo y hy)))
          | date t =>
            exact decide_eq_true rfl
          | regexp s1 f1 li =>
            show (decide (s1 = s1) && decide (f1 = f1)) = true
            simp
          | jsMap es =>
            exact eqKeyed_of_forall₂ (wfB_jsMap hwo).2 (List.forall₂_same.mpr
              (fun p hp => ⟨rfl, hrec p.2 ((wfB_jsMap hwo).1 p hp).2⟩))
          | jsSet xs =>
            exact eqSet_of_forall₂ (List.forall₂_same.mpr
              (fun y hy => hrec y (wfB_jsSet hwo y hy)))
          | file nm ty c =>
            show (decide (nm = nm) && decide (ty = ty) && decide (c = c)) = true
            simp
          | dataview bs =>
            exact decide_eq_true rfl
          | buffer bs =>
            exact decide_eq_true rfl
          | thenable => rfl
          | errObj m =>
            exact decide_eq_true rfl
          | weakMap => rfl
          | weakSet => rfl
          | custom c fs =>
            show (decide (c = c) && eqKeyed (eqVal H f (a :: A) (a :: B)) fs fs) = true
            rw [Bool.and_eq_true]
            exact ⟨decide_eq_true rfl,
              eqKeyed_of_forall₂ (wfB_custom hwo).2 (List.forall₂_same.mpr
                (fun p hp => ⟨rfl, hrec p.2 ((wfB_custom hwo).1 p hp)⟩))⟩

theorem eqPost_mono {h₁ h₂ : Heap} {v' v : JSVal} (h21 : h₂.Extends h₁)
    (hp : EqPost h₁ v' v) : EqPost h₂ v' v :=
  fun H he hw => hp H (heapExtends_trans h21 he) hw

theorem eqPost_of_self {h₁ : Heap} {v : JSVal}
    (hv : v.refBelow h₁.objs.length = true) : EqPost h₁ v v := by
  intro H he hw fuel A B hm
  exact eqVal_self H hw fuel A B v
    (refBelow_mono (heapExtends_length_le he) hv) hm

theorem copyInv_addCache {h₀ : Heap} {st : CopySt} {a : Addr}
    (hInv : CopyInv h₀ st) (haN : a < h₀.objs.length) (haC : a ∉ st.cache) :
    CopyInv h₀ (addCache st a) :=
  ⟨hInv.ext, hInv.wf, List.Nodup.cons haC hInv.nodup,
   fun x hx => by
    rcases List.mem_cons.mp hx with rfl | hx2
    · exact haN
    · exact hInv.bound x hx2⟩

theorem budget_addCache {h₀ : Heap} {st : CopySt} {a : Addr} {fuel : Nat}
    (hInv : CopyInv h₀ st) (haN : a < h₀.objs.length) (haC : a ∉ st.cache)
    (hbud : h₀.objs.length - st.cache.length < fuel + 1) :
    h₀.objs.length - (addCache st a).cache.length < fuel := by
  have hsub : st.cache.toFinset ⊆ (Finset.range h₀.objs.length).erase a := by
    intro x hx
    rw [List.mem_toFinset] at hx
    rw [Finset.mem_erase, Finset.mem_range]
    exact ⟨fun he => haC (he ▸ hx), hInv.bound x hx⟩
  have hcard : st.cache.length ≤ h₀.objs.length - 1 := by
    have h1 := Finset.card_le_card hsub
    rw [List.toFinset_card_of_nodup hInv.nodup] at h1
    rw [Finset.card_erase_of_mem (Finset.mem_range.mpr haN), Finset.card_range] at h1
    exact h1
  have hlen : (addCache st a).cache.length = st.cache.length + 1 := rfl
  rw [hlen]
  have hlt : st.cache.length < h₀.objs.length :=
    Nat.lt_of_le_of_lt hcard (Nat.sub_lt (Nat.zero_lt_of_lt haN) Nat.one_pos)
  have h2 : h₀.objs.length - st.cache.length ≤ fuel := Nat.lt_succ_iff.mp hbud
  have h3 : 0 < h₀.objs.length - st.cache.length := Nat.sub_pos_of_lt hlt
  calc h₀.objs.length - (st.cache.length + 1)
      = h₀.objs.length - st.cache.length - 1 := by rw [Nat.sub_sub]
    _ < h₀.objs.length - st.cache.length := Nat.sub_lt h3 Nat.one_pos
    _ ≤ fuel := h2

theorem copyInv_alloc {h₀ : Heap} {st : CopySt} {o : JSObj}
    (hInv : CopyInv h₀ st) (ho : o.wfB (st.heap.objs.length + 1) = true) :
    CopyInv h₀ { st with heap := ⟨st.heap.objs ++ [o]⟩ } :=
  ⟨heapExtends_trans hInv.ext (heapExtends_snoc _ _),
   heapWf_snoc hInv.wf ho, hInv.nodup, hInv.bound⟩

theorem forall₂_mem_left {α β : Type} {R : α → β → Prop} :
    ∀ {l' : List α} {l : List β}, List.Forall₂ R l' l →
      ∀ x ∈ l', ∃ y ∈ l, R x y := by
  intro l' l hf
  induction hf with
  | nil => intro x hx; cases hx
  | cons h _ ih =>
    intro x hx
    rcases List.mem_cons.mp hx with rfl | hxm
    · exact ⟨_, List.mem_cons_self _ _, h⟩
    · obtain ⟨y, hy, hR⟩ := ih x hxm
      exact ⟨y, List.mem_cons_of_mem _ hy, hR⟩

theorem wfB_plain_intro {fs : List (String × JSVal)} {n : Nat}
    (hv : ∀ p ∈ fs, (p.2 : JSVal).refBelow n = true)
    (hnd : (fs.map Prod.fst).Nodup) : (JSObj.plain fs).wfB n = true := by
  unfold JSObj.wfB
  rw [Bool.and_eq_true]
  constructor
  · simp only [JSObj.childVals, List.all_eq_true, List.mem_map]
    rintro v ⟨p, hp, rfl⟩
    exact hv p hp
  · simp only [keysNodupB, decide_eq_true_eq]
    exact hnd

theorem wfB_custom_intro {c : Nat} {fs : List (String × JSVal)} {n : Nat}
    (hv : ∀ p ∈ fs, (p.2 : JSVal).refBelow n = true)
    (hnd : (fs.map Prod.fst).Nodup) : (JSObj.custom c fs).wfB n = true := by
  unfold JSObj.wfB
  rw [Bool.and_eq_true]
  constructor
  · simp only [JSObj.childVals, List.all_eq_true, List.mem_map]
    rintro v ⟨p, hp, rfl⟩
    exact hv p hp
  · simp only [keysNodupB, decide_eq_true_eq]
    exact hnd

theorem wfB_jsMap_intro {es : List (JSVal × JSVal)} {n : Nat}
    (hk : ∀ p ∈ es, (p.1 : JSVal).refBelow n = true)
    (hv : ∀ p ∈ es, (p.2 : JSVal).refBelow n = true)
    (hnd : (es.map Prod.fst).Nodup) : (JSObj.jsMap es).wfB n = true := by
  unfold JSObj.wfB
  rw [Bool.and_eq_true]
  constructor
  · simp only [JSObj.childVals, List.all_eq_true, List.mem_append, List.mem_map]
    rintro v (⟨p, hp, rfl⟩ | ⟨p, hp, rfl⟩)
    · exact hk p hp
    · exact hv p hp
  · simp only [keysNodupB, decide_eq_true_eq]
    exact hnd

theorem wfB_arr_intro {xs : List JSVal} {n : Nat}
    (hv : ∀ x ∈ xs, (x : JSVal).refBelow n = true) :
    (JSObj.arr xs).wfB n = true := by
  unfold JSObj.wfB
  rw [Bool.and_eq_true]
  exact ⟨by simpa only [JSObj.childVals, List.all_eq_true] using hv, rfl⟩

theorem wfB_jsSet_intro {xs : List JSVal} {n : Nat}
    (hv : ∀ x ∈ xs, (x : JSVal).refBelow n = true) :
    (JSObj.jsSet xs).wfB n = true := by
  unfold JSObj.wfB
  rw [Bool.and_eq_true]
  exact ⟨by simpa only [JSObj.childVals, List.all_eq_true] using hv, rfl⟩

/-- Lift a per-object equality obligation to `EqPost` on a pair of
references: a cache hit is immediately accepted, otherwise the measure
strictly drops and the object-level obligation fires. -/
theorem eqPost_ref {h₁ : Heap} {a' a : Addr} {o' o : JSObj}
    (ha' : h₁.lookup a' = some o') (ha : h₁.lookup a = some o)
    (hobj : ∀ H : Heap, H.Extends h₁ → H.wfB = true →
      ∀ f A B, eqMeasure H A B < f → eqObj (eqVal H f A B) o' o = true) :
    EqPost h₁ (.ref a') (.ref a) := by
  intro H he hw fuel A B hm
  match fuel with
  | 0 => exact absurd hm (Nat.not_lt_zero _)
  | f + 1 =>
    rw [eqVal_ref]
    by_cases hc : (A.contains a' && B.contains a) = true
    · rw [if_pos hc]
    · rw [if_neg hc, heapExtends_lookup he ha', heapExtends_lookup he ha]
      have hnot : ¬(a' ∈ A ∧ a ∈ B) := by
        rw [Bool.and_eq_true, contains_mem, contains_mem] at hc
        exact hc
      have ha'N : a' < H.objs.length := lookup_lt (heapExtends_lookup he ha')
      have haN : a < H.objs.length := lookup_lt (heapExtends_lookup he ha)
      have hm2 : eqMeasure H (a' :: A) (a :: B) < f := by
        have h2 := eqMeasure_lt ha'N haN hnot
        omega
      exact hobj H he hw f (a' :: A) (a :: B) hm2

theorem keyed_post {κ : Type} [DecidableEq κ] {h₁ : Heap}
    {l' l : List (κ × JSVal)} (hnd : (l.map Prod.fst).Nodup)
    (hfa : List.Forall₂ (fun p q => p.1 = q.1 ∧ EqPost h₁ p.2 q.2) l' l) :
    ∀ H : Heap, H.Extends h₁ → H.wfB = true →
      ∀ f A B, eqMeasure H A B < f → eqKeyed (eqVal H f A B) l' l = true := by
  intro H he hw f A B hm
  exact eqKeyed_of_forall₂ hnd
    (hfa.imp (fun p q hpq => ⟨hpq.1, hpq.2 H he hw f A B hm⟩))

theorem list_post {h₁ : Heap} {l' l : List JSVal}
    (hfa : List.Forall₂ (fun x y => EqPost h₁ x y) l' l) :
    ∀ H : Heap, H.Extends h₁ → H.wfB = true →
      ∀ f A B, eqMeasure H A B < f → eqList (eqVal H f A B) l' l = true := by
  intro H he hw f A B hm
  exact eqList_of_forall₂ (hfa.imp (fun x y hxy => hxy H he hw f A B hm))

theorem setlist_post {h₁ : Heap} {l' l : List JSVal}
    (hfa : List.Forall₂ (fun x y => EqPost h₁ x y) l' l) :
    ∀ H : Heap, H.Extends h₁ → H.wfB = true →
      ∀ f A B, eqMeasure H A B < f → eqSetElems (eqVal H f A B) l' l = true := by
  intro H he hw f A B hm
  exact eqSet_of_forall₂ (hfa.imp (fun x y hxy => hxy H he hw f A B hm))

theorem snoc_length (h : Heap) (o : JSObj) :
    (⟨h.objs ++ [o]⟩ : Heap).objs.length = h.objs.length + 1 := by
  simp

theorem refBelow_new (h : Heap) (o : JSObj) :
    (JSVal.ref h.objs.length).refBelow (⟨h.objs ++ [o]⟩ : Heap).objs.length = true := by
  rw [JSVal.refBelow, snoc_length]
  exact decide_eq_true (Nat.lt_succ_self _)

theorem handleCopy_ref (s : Bool) (f : Nat) (st : CopySt) (a : Addr) :
    handleCopy s (f + 1) (.ref a) st =
      if st.cache.contains a then some (.ref a, st)
      else
        match st.heap.lookup a with
        | none => some (.ref a, st)
        | some o => handleObj s (handleCopy s f) a o st := rfl

/-- Running the key-preserving field copier over a list of children, each
covered by the per-call spec, preserves the invariant and yields a
pointwise key-equal, `EqPost`-related result list. -/
theorem copySnds_spec {κ : Type} (s : Bool) (h₀ : Heap) (f : Nat)
    (hf : ∀ st v, CopyInv h₀ st → v.refBelow h₀.objs.length = true →
      h₀.objs.length - st.cache.length < f →
      ∃ v' st', handleCopy s f v st = some (v', st') ∧ CopyPost h₀ st v v' st') :
    ∀ (l : List (κ × JSVal)) (st : CopySt), CopyInv h₀ st →
      (∀ p ∈ l, (p.2 : JSVal).refBelow h₀.objs.length = true) →
      h₀.objs.length - st.cache.length < f →
      ∃ l' st', copySnds (handleCopy s f) l st = some (l', st') ∧
        st'.heap.Extends st.heap ∧ CopyInv h₀ st' ∧ st.cache.IsSuffix st'.cache ∧
        List.Forall₂ (fun p q => p.1 = q.1 ∧
          ((p.2 : JSVal).refBelow st'.heap.objs.length = true ∧
           EqPost st'.heap p.2 q.2)) l' l := by
  intro l
  induction l with
  | nil =>
    intro st hInv _ _
    exact ⟨[], st, rfl, heapExtends_refl _, hInv, List.suffix_refl _, List.Forall₂.nil⟩
  | cons p rest ih =>
    intro st hInv hok hbud
    obtain ⟨k, v⟩ := p
    obtain ⟨v1, st1, hf1, hpost1⟩ :=
      hf st v hInv (hok (k, v) (List.mem_cons_self _ _)) hbud
    have hbud1 : h₀.objs.length - st1.cache.length < f :=
      Nat.lt_of_le_of_lt
        (Nat.sub_le_sub_left hpost1.cacheSuffix.length_le _) hbud
    obtain ⟨rest', st2, hf2, hext2, hInv2, hsuf2, hfa2⟩ :=
      ih st1 hpost1.inv (fun q hq => hok q (List.mem_cons_of_mem _ hq)) hbud1
    refine ⟨(k, v1) :: rest', st2, ?_, heapExtends_trans hpost1.ext hext2,
      hInv2, hpost1.cacheSuffix.trans hsuf2, ?_⟩
    · simp only [copySnds, hf1, hf2]
    · exact List.Forall₂.cons
        ⟨rfl, refBelow_mono (heapExtends_length_le hext2) hpost1.rb,
         eqPost_mono hext2 hpost1.eqp⟩ hfa2

/-- Same for the element copier (arrays and sets). -/
theorem copyList_spec (s : Bool) (h₀ : Heap) (f : Nat)
    (hf : ∀ st v, CopyInv h₀ st → v.refBelow h₀.objs.length = true →
      h₀.objs.length - st.cache.length < f →
      ∃ v' st', handleCopy s f v st = some (v', st') ∧ CopyPost h₀ st v v' st') :
    ∀ (l : List JSVal) (st : CopySt), CopyInv h₀ st →
      (∀ x ∈ l, (x : JSVal).refBelow h₀.objs.length = true) →
      h₀.objs.length - st.cache.length < f →
      ∃ l' st', copyList (handleCopy s f) l st = some (l', st') ∧
        st'.heap.Extends st.heap ∧ CopyInv h₀ st' ∧ st.cache.IsSuffix st'.cache ∧
        List.Forall₂ (fun x y =>
          (x : JSVal).refBelow st'.heap.objs.length = true ∧
          EqPost st'.heap x y) l' l := by
  intro l
  induction l with
  | nil =>
    intro st hInv _ _
    exact ⟨[], st, rfl, heapExtends_refl _, hInv, List.suffix_refl _, List.Forall₂.nil⟩
  | cons v rest ih =>
    intro st hInv hok hbud
    obtain ⟨v1, st1, hf1, hpost1⟩ :=
      hf st v hInv (hok v (List.mem_cons_self _ _)) hbud
    have hbud1 : h₀.objs.length - st1.cache.length < f :=
      Nat.lt_of_le_of_lt
        (Nat.sub_le_sub_left hpost1.cacheSuffix.length_le _) hbud
    obtain ⟨rest', st2, hf2, hext2, hInv2, hsuf2, hfa2⟩ :=
      ih st1 hpost1.inv (fun q hq => hok q (List.mem_cons_of_mem _ hq)) hbud1
    refine ⟨v1 :: rest', st2, ?_, heapExtends_trans hpost1.ext hext2,
      hInv2, hpost1.cacheSuffix.trans hsuf2, ?_⟩
    · simp only [copyList, hf1, hf2]
    · exact List.Forall₂.cons
        ⟨refBelow_mono (heapExtends_length_le hext2) hpost1.rb,
         eqPost_mono hext2 hpost1.eqp⟩ hfa2

/-- The fundamental lemma of the clone engine: on a well-formed heap, with
the fuel budget strictly above the number of unvisited original addresses,
`handleCopy` succeeds (termination), preserves the heap/cache invariants,
and produces a value the equality engine accepts as deep-equal to its
argument.  This covers cyclic and shared structures: a re-visited
composite is returned as the original reference, which the `EqPost` of the
cached branch absorbs through cycle-safe reflexivity. -/
theorem handleCopy_spec (s : Bool) (h₀ : Heap) (hwf0 : h₀.wfB = true) :
    ∀ fuel st v, CopyInv h₀ st → v.refBelow h₀.objs.length = true →
      h₀.objs.length - st.cache.length < fuel →
      ∃ v' st', handleCopy s fuel v st = some (v', st') ∧
        CopyPost h₀ st v v' st' := by
  intro fuel
  induction fuel with
  | zero =>
    intro st v _ _ hbud
    exact absurd hbud (Nat.not_lt_zero _)
  | succ f ih =>
    intro st v hInv hv hbud
    match v with
    | .undef | .jnull | .num _ | .str _ | .boolV _ | .sym _ | .func _ =>
      exact ⟨_, st, rfl, heapExtends_refl _, hInv, List.suffix_refl _, rfl,
        eqPost_of_self rfl⟩
    | .ref a =>
      have haN : a < h₀.objs.length := of_decide_eq_true hv
      obtain ⟨o, hlook0⟩ : ∃ o, h₀.lookup a = some o := ⟨_, lookup_of_lt haN⟩
      have hstlook : st.heap.lookup a = some o := heapExtends_lookup hInv.ext hlook0
      have hwo : o.wfB h₀.objs.length = true := wfB_lookup hwf0 hlook0
      have hrbst : (JSVal.ref a).refBelow st.heap.objs.length = true :=
        decide_eq_true (Nat.lt_of_lt_of_le haN (heapExtends_length_le hInv.ext))
      by_cases hcache : st.cache.contains a = true
      · refine ⟨.ref a, st, ?_, heapExtends_refl _, hInv, List.suffix_refl _,
          hrbst, eqPost_of_self hrbst⟩
        rw [handleCopy_ref, if_pos hcache]
      · have haC : a ∉ st.cache := fun hmem => hcache (contains_mem.mpr hmem)
        have hrw : handleCopy s (f + 1) (.ref a) st =
            handleObj s (handleCopy s f) a o st := by
          rw [handleCopy_ref, if_neg hcache, hstlook]
        have hInv1 := copyInv_addCache hInv haN haC
        have hbud1 := budget_addCache hInv haN haC hbud
        cases o with
        | plain fs =>
          obtain ⟨hvals, hnd⟩ := wfB_plain hwo
          obtain ⟨fs', st2, hrun, hext2, hInv2, hsuf2, hfa⟩ :=
            copySnds_spec s h₀ f ih fs (addCache st a) hInv1 hvals hbud1
          have hkeys : fs'.map Prod.fst = fs.map Prod.fst :=
            forall₂_keys_eq (R := fun x y =>
              x.refBelow st2.heap.objs.length = true ∧ EqPost st2.heap x y) hfa
          have hwnew : (JSObj.plain fs').wfB (st2.heap.objs.length + 1) = true := by
            refine wfB_plain_intro ?_ (hkeys ▸ hnd)
            intro p hp
            obtain ⟨q, _, hpq⟩ := forall₂_mem_left hfa p hp
            exact refBelow_mono (Nat.le_succ _) hpq.2.1
          have hInvF := copyInv_alloc hInv2 hwnew
          have heqp : EqPost (⟨st2.heap.objs ++ [JSObj.plain fs']⟩ : Heap)
              (.ref st2.heap.objs.length) (.ref a) := by
            apply eqPost_ref (lookup_snoc_new st2.heap (.plain fs'))
              (heapExtends_lookup hInvF.ext hlook0)
            intro H he hw fuel2 A B hm
            exact keyed_post hnd (hfa.imp (fun p q hpq =>
              ⟨hpq.1, eqPost_mono (heapExtends_snoc _ _) hpq.2.2⟩)) H he hw fuel2 A B hm
          exact ⟨.ref st2.heap.objs.length, _,
            (by rw [hrw]; simp only [handleObj, hrun, allocInSt]),
            heapExtends_trans hext2 (heapExtends_snoc _ _), hInvF,
            (List.suffix_cons a st.cache).trans hsuf2, refBelow_new st2.heap _, heqp⟩
        | arr xs =>
          have hvals := wfB_arr hwo
          obtain ⟨xs', st2, hrun, hext2, hInv2, hsuf2, hfa⟩ :=
            copyList_spec s h₀ f ih xs (addCache st a) hInv1 hvals hbud1
          have hwnew : (JSObj.arr xs').wfB (st2.heap.objs.length + 1) = true := by
            refine wfB_arr_intro ?_
            intro x hx
            obtain ⟨y, _, hxy⟩ := forall₂_mem_left hfa x hx
            exact refBelow_mono (Nat.le_succ _) hxy.1
          have hInvF := copyInv_alloc hInv2 hwnew
          have heqp : EqPost (⟨st2.heap.objs ++ [JSObj.arr xs']⟩ : Heap)
              (.ref st2.heap.objs.length) (.ref a) := by
            apply eqPost_ref (lookup_snoc_new st2.heap (.arr xs'))
              (heapExtends_lookup hInvF.ext hlook0)
            intro H he hw fuel2 A B hm
            exact list_post (hfa.imp (fun x y hxy =>
              eqPost_mono (heapExtends_snoc _ _) hxy.2)) H he hw fuel2 A B hm
          exact ⟨.ref st2.heap.objs.length, _,
            (by rw [hrw]; simp only [handleObj, hrun, allocInSt]),
            heapExtends_trans hext2 (heapExtends_snoc _ _), hInvF,
            (List.suffix_cons a st.cache).trans hsuf2, refBelow_new st2.heap _, heqp⟩
        | date t =>
          have hwnew : (JSObj.date t).wfB (st.heap.objs.length + 1) = true := rfl
          have hInvF := copyInv_alloc hInv hwnew
          have heqp : EqPost (⟨st.heap.objs ++ [JSObj.date t]⟩ : Heap)
              (.ref st.heap.objs.length) (.ref a) := by
            apply eqPost_ref (lookup_snoc_new st.heap (.date t))
              (heapExtends_lookup hInvF.ext hlook0)
            intro H he hw fuel2 A B hm
            exact decide_eq_true rfl
          exact ⟨.ref st.heap.objs.length, _,
            (by rw [hrw]; simp only [handleObj, allocInSt]),
            heapExtends_snoc _ _, hInvF, List.suffix_refl _,
            refBelow_new st.heap _, heqp⟩
        | regexp source flags li =>
          have hwnew : (JSObj.regexp source flags li).wfB (st.heap.objs.length + 1) = true := rfl
          have hInvF := copyInv_alloc hInv hwnew
          have heqp : EqPost (⟨st.heap.objs ++ [JSObj.regexp source flags li]⟩ : Heap)
              (.ref st.heap.objs.length) (.ref a) := by
            apply eqPost_ref (lookup_snoc_new st.heap (.regexp source flags li))
              (heapExtends_lookup hInvF.ext hlook0)
            intro H he hw fuel2 A B hm
            show (decide (source = source) && decide (flags = flags)) = true
            simp
          exact ⟨.ref st.heap.objs.length, _,
            (by rw [hrw]; simp only [handleObj, allocInSt]),
            heapExtends_snoc _ _, hInvF, List.suffix_refl _,
            refBelow_new st.heap _, heqp⟩
        | jsMap es =>
          obtain ⟨hboth, hnd⟩ := wfB_jsMap hwo
          obtain ⟨es', st2, hrun, hext2, hInv2, hsuf2, hfa⟩ :=
            copySnds_spec s h₀ f ih es (addCache st a) hInv1
              (fun p hp => (hboth p hp).2) hbud1
          have hkeys : es'.map Prod.fst = es.map Prod.fst :=
            forall₂_keys_eq (R := fun x y =>
              x.refBelow st2.heap.objs.length = true ∧ EqPost st2.heap x y) hfa
          have hL2 : h₀.objs.length ≤ st2.heap.objs.length :=
            Nat.le_trans (heapExtends_length_le hInv.ext) (heapExtends_length_le hext2)
          have hwnew : (JSObj.jsMap es').wfB (st2.heap.objs.length + 1) = true := by
            refine wfB_jsMap_intro ?_ ?_ (hkeys ▸ hnd)
            · intro p hp
              obtain ⟨q, hq, hpq⟩ := forall₂_mem_left hfa p hp
              rw [hpq.1]
              exact refBelow_mono (Nat.le_trans hL2 (Nat.le_succ _)) (hboth q hq).1
            · intro p hp
              obtain ⟨q, _, hpq⟩ := forall₂_mem_left hfa p hp
              exact refBelow_mono (Nat.le_succ _) hpq.2.1
          have hInvF := copyInv_alloc hInv2 hwnew
          have heqp : EqPost (⟨st2.heap.objs ++ [JSObj.jsMap es']⟩ : Heap)
              (.ref st2.heap.objs.length) (.ref a) := by
            apply eqPost_ref (lookup_snoc_new st2.heap (.jsMap es'))
              (heapExtends_lookup hInvF.ext hlook0)
            intro H he hw fuel2 A B hm
            exact keyed_post hnd (hfa.imp (fun p q hpq =>
              ⟨hpq.1, eqPost_mono (heapExtends_snoc _ _) hpq.2.2⟩)) H he hw fuel2 A B hm
          exact ⟨.ref st2.heap.objs.length, _,
            (by rw [hrw]; simp only [handleObj, hrun, allocInSt]),
            heapExtends_trans hext2 (heapExtends_snoc _ _), hInvF,
            (List.suffix_cons a st.cache).trans hsuf2, refBelow_new st2.heap _, heqp⟩
        | jsSet xs =>
          have hvals := wfB_jsSet hwo
          obtain ⟨xs', st2, hrun, hext2, hInv2, hsuf2, hfa⟩ :=
            copyList_spec s h₀ f ih xs (addCache st a) hInv1 hvals hbud1
          have hwnew : (JSObj.jsSet xs').wfB (st2.heap.objs.length + 1) = true := by
            refine wfB_jsSet_intro ?_
            intro x hx
            obtain ⟨y, _, hxy⟩ := forall₂_mem_left hfa x hx
            exact refBelow_mono (Nat.le_succ _) hxy.1
          have hInvF := copyInv_alloc hInv2 hwnew
          have heqp : EqPost (⟨st2.heap.objs ++ [JSObj.jsSet xs']⟩ : Heap)
              (.ref st2.heap.objs.length) (.ref a) := by
            apply eqPost_ref (lookup_snoc_new st2.heap (.jsSet xs'))
              (heapExtends_lookup hInvF.ext hlook0)
            intro H he hw fuel2 A B hm
            exact setlist_post (hfa.imp (fun x y hxy =>
              eqPost_mono (heapExtends_snoc _ _) hxy.2)) H he hw fuel2 A B hm
          exact ⟨.ref st2.heap.objs.length, _,
            (by rw [hrw]; simp only [handleObj, hrun, allocInSt]),
            heapExtends_trans hext2 (heapExtends_snoc _ _), hInvF,
            (List.suffix_cons a st.cache).trans hsuf2, refBelow_new st2.heap _, heqp⟩
        | file nm ty content =>
          have hwnew : (JSObj.file nm ty content).wfB (st.heap.objs.length + 1) = true := rfl
          have hInvF := copyInv_alloc hInv1 hwnew
          have heqp : EqPost (⟨st.heap.objs ++ [JSObj.file nm ty content]⟩ : Heap)
              (.ref st.heap.objs.length) (.ref a) := by
            apply eqPost_ref (lookup_snoc_new st.heap (.file nm ty content))
              (heapExtends_lookup hInvF.ext hlook0)
            intro H he hw fuel2 A B hm
            show (decide (nm = nm) && decide (ty = ty) && decide (content = content)) = true
            simp
          exact ⟨.ref st.heap.objs.length, _,
            (by rw [hrw]; simp only [handleObj, allocInSt]; exact rfl),
            heapExtends_snoc _ _, hInvF, List.suffix_cons a st.cache,
            refBelow_new st.heap _, heqp⟩
        | dataview bytes =>
          have hwnew : (JSObj.dataview bytes).wfB (st.heap.objs.length + 1) = true := rfl
          have hInvF := copyInv_alloc hInv hwnew
          have heqp : EqPost (⟨st.heap.objs ++ [JSObj.dataview bytes]⟩ : Heap)
              (.ref st.heap.objs.length) (.ref a) := by
            apply eqPost_ref (lookup_snoc_new st.heap (.dataview bytes))
              (heapExtends_lookup hInvF.ext hlook0)
            intro H he hw fuel2 A B hm
            exact decide_eq_true rfl
          exact ⟨.ref st.heap.objs.length, _,
            (by rw [hrw]; simp only [handleObj, allocInSt]),
            heapExtends_snoc _ _, hInvF, List.suffix_refl _,
            refBelow_new st.heap _, heqp⟩
        | buffer bytes =>
          have hwnew : (JSObj.buffer bytes).wfB (st.heap.objs.length + 1) = true := rfl
          have hInvF := copyInv_alloc hInv hwnew
          have heqp : EqPost (⟨st.heap.objs ++ [JSObj.buffer bytes]⟩ : Heap)
              (.ref st.heap.objs.length) (.ref a) := by
            apply eqPost_ref (lookup_snoc_new st.heap (.buffer bytes))
              (heapExtends_lookup hInvF.ext hlook0)
            intro H he hw fuel2 A B hm
            exact decide_eq_true rfl
          exact ⟨.ref st.heap.objs.length, _,
            (by rw [hrw]; simp only [handleObj, allocInSt]),
            heapExtends_snoc _ _, hInvF, List.suffix_refl _,
            refBelow_new st.heap _, heqp⟩
        | thenable =>
          exact ⟨.ref a, st, (by rw [hrw]; exact rfl), heapExtends_refl _, hInv,
            List.suffix_refl _, hrbst, eqPost_of_self hrbst⟩
        | errObj m =>
          exact ⟨.ref a, st, (by rw [hrw]; exact rfl), heapExtends_refl _, hInv,
            List.suffix_refl _, hrbst, eqPost_of_self hrbst⟩
        | weakMap =>
          exact ⟨.ref a, st, (by rw [hrw]; exact rfl), heapExtends_refl _, hInv,
            List.suffix_refl _, hrbst, eqPost_of_self hrbst⟩
        | weakSet =>
          exact ⟨.ref a, st, (by rw [hrw]; exact rfl), heapExtends_refl _, hInv,
            List.suffix_refl _, hrbst, eqPost_of_self hrbst⟩
        | custom c fs =>
          by_cases hthen : hasOwnThen fs = true
          · refine ⟨.ref a, st, ?_, heapExtends_refl _, hInv,
              List.suffix_refl _, hrbst, eqPost_of_self hrbst⟩
            rw [hrw]
            simp only [handleObj, if_pos hthen]
          · obtain ⟨hvals, hnd⟩ := wfB_custom hwo
            obtain ⟨fs', st2, hrun, hext2, hInv2, hsuf2, hfa⟩ :=
              copySnds_spec s h₀ f ih fs (addCache st a) hInv1 hvals hbud1
            have hkeys : fs'.map Prod.fst = fs.map Prod.fst :=
              forall₂_keys_eq (R := fun x y =>
                x.refBelow st2.heap.objs.length = true ∧ EqPost st2.heap x y) hfa
            have hwnew : (JSObj.custom c fs').wfB (st2.heap.objs.length + 1) = true := by
              refine wfB_custom_intro ?_ (hkeys ▸ hnd)
              intro p hp
              obtain ⟨q, _, hpq⟩ := forall₂_mem_left hfa p hp
              exact refBelow_mono (Nat.le_succ _) hpq.2.1
            have hInvF := copyInv_alloc hInv2 hwnew
            have heqp : EqPost (⟨st2.heap.objs ++ [JSObj.custom c fs']⟩ : Heap)
                (.ref st2.heap.objs.length) (.ref a) := by
              apply eqPost_ref (lookup_snoc_new st2.heap (.custom c fs'))
                (heapExtends_lookup hInvF.ext hlook0)
              intro H he hw fuel2 A B hm
              show (decide (c = c) && eqKeyed (eqVal H fuel2 A B) fs' fs) = true
              rw [Bool.and_eq_true]
              exact ⟨decide_eq_true rfl,
                keyed_post hnd (hfa.imp (fun p q hpq =>
                  ⟨hpq.1, eqPost_mono (heapExtends_snoc _ _) hpq.2.2⟩)) H he hw fuel2 A B hm⟩
            exact ⟨.ref st2.heap.objs.length, _,
              (by rw [hrw]; simp only [handleObj, if_neg hthen, hrun, allocInSt]),
              heapExtends_trans hext2 (heapExtends_snoc _ _), hInvF,
              (List.suffix_cons a st.cache).trans hsuf2, refBelow_new st2.heap _, heqp⟩

/-- Top-level specification of `copy`: on a well-formed heap and valid
root it succeeds, extends the heap keeping it well formed, and its result
satisfies `EqPost` for the final heap. -/
theorem copy_spec (s : Bool) (h : Heap) (v : JSVal) (hwf : h.wfB = true)
    (hv : v.refBelow h.objs.length = true) :
    ∃ v' h', copy s h v = some (v', h') ∧ h'.Extends h ∧ h'.wfB = true ∧
      v'.refBelow h'.objs.length = true ∧ EqPost h' v' v := by
  have hInv0 : CopyInv h ⟨h, []⟩ :=
    ⟨heapExtends_refl _, hwf, List.nodup_nil, fun a ha => absurd ha (List.not_mem_nil a)⟩
  have hbud : h.objs.length - (⟨h, ([] : List Addr)⟩ : CopySt).cache.length <
      h.objs.length + 2 := by
    show h.objs.length - ([] : List Addr).length < h.objs.length + 2
    rw [List.length_nil, Nat.sub_zero]
    exact Nat.lt_add_of_pos_right (by decide)
  obtain ⟨v', st', hrun, hpost⟩ :=
    handleCopy_spec s h hwf (h.objs.length + 2) ⟨h, []⟩ v hInv0 hv hbud
  refine ⟨v', st'.heap, ?_, hpost.inv.ext, hpost.inv.wf, hpost.rb, hpost.eqp⟩
  unfold copy
  rw [hrun]

/-! ## Claims about the clone engine -/

/-- C10: `copy` returns any non-object value — `null`, `undefined`,
numbers, strings, booleans, symbols, functions — unchanged (the input
itself), with the heap untouched, regardless of the `isStrict` option. -/
theorem c10_copy_primitive_identity (s : Bool) (h : Heap) (v : JSVal)
    (hv : v.isObjRef = false) : copy s h v = some (v, h) := by
  have haux : handleCopy s (h.objs.length + 2) v ⟨h, []⟩ = some (v, ⟨h, []⟩) := by
    cases v
    case ref a => simp [JSVal.isObjRef] at hv
    all_goals rfl
  unfold copy
  rw [haux]

/-- Witness for C10: `copy` at the number 5 over the empty heap. -/
theorem c10_witness : copy false ⟨[]⟩ (.num 5) = some (.num 5, ⟨[]⟩) :=
  c10_copy_primitive_identity false ⟨[]⟩ (.num 5) rfl

/-- C8 (amended): for a reference whose object reaches the pass-through
branch — an `Error`, `WeakMap`, `WeakSet`, or a promise-like value not
captured by an earlier typed branch (a genuine promise, or a constructed
object with a callable own `then`) — `copy` returns the identical
reference and leaves the heap unchanged, in both strict and loose mode.
A promise-like PLAIN object does not qualify: the plain-object branch
clones it first (see `c8_counterexample`). -/
theorem c8_passthrough_identity (s : Bool) (h : Heap) (a : Addr) (o : JSObj)
    (hl : h.lookup a = some o) (hp : o.isPassKind = true) :
    copy s h (.ref a) = some (.ref a, h) := by
  have hnc : ¬((⟨h, ([] : List Addr)⟩ : CopySt).cache.contains a = true) := by
    intro hh
    exact absurd (contains_mem.mp hh) (List.not_mem_nil a)
  have haux : handleCopy s (h.objs.length + 2) (.ref a) ⟨h, []⟩ =
      some (.ref a, ⟨h, []⟩) := by
    show handleCopy s ((h.objs.length + 1) + 1) (.ref a) ⟨h, []⟩ =
      some (.ref a, ⟨h, []⟩)
    rw [handleCopy_ref, if_neg hnc]
    have hl2 : (⟨h, ([] : List Addr)⟩ : CopySt).heap.lookup a = some o := hl
    rw [hl2]
    cases o with
    | thenable => rfl
    | errObj m => rfl
    | weakMap => rfl
    | weakSet => rfl
    | custom c fs =>
      have hth : hasOwnThen fs = true := by simpa [JSObj.isPassKind] using hp
      show handleObj s _ a (.custom c fs) _ = _
      simp only [handleObj, if_pos hth]
    | plain fs => simp [JSObj.isPassKind] at hp
    | arr xs => simp [JSObj.isPassKind] at hp
    | date t => simp [JSObj.isPassKind] at hp
    | regexp s1 f1 li => simp [JSObj.isPassKind] at hp
    | jsMap es => simp [JSObj.isPassKind] at hp
    | jsSet xs => simp [JSObj.isPassKind] at hp
    | file nm ty c => simp [JSObj.isPassKind] at hp
    | dataview bs => simp [JSObj.isPassKind] at hp
    | buffer bs => simp [JSObj.isPassKind] at hp
  unfold copy
  rw [haux]

/-- Witness for C8 (amended): a `WeakMap` passes through unchanged. -/
theorem c8_witness : copy false ⟨[.weakMap]⟩ (.ref 0) = some (.ref 0, ⟨[.weakMap]⟩) :=
  c8_passthrough_identity false ⟨[.weakMap]⟩ 0 .weakMap rfl rfl

/-- C8 counterexample: a plain object with a callable own `then` is
promise-like (it has a callable `then`), yet `copy` CLONES it — the
plain-object branch (`constructor === Object`) fires before the
pass-through test — so the result is a fresh reference (address 1), not
the identical input reference (address 0). -/
theorem c8_counterexample :
    hasOwnThen [("then", JSVal.func 0)] = true ∧
    copy false hThen (.ref 0) =
      some (.ref 1, ⟨[.plain [("then", .func 0)], .plain [("then", .func 0)]]⟩) ∧
    JSVal.ref 1 ≠ JSVal.ref 0 := by
  decide

/-- C1 (amended): `copy` terminates on every well-formed input — cyclic
inputs included — and returns a value that the (spec-modelled, §4.1)
equality engine accepts as deep-equal to the input.  However, a composite
encountered a second time during the walk is returned as the *original*
reference (second conjunct: the visit cache is a `WeakSet`, storing no
clones), so cycle back-edges inside the clone point at nodes of the
original, and those composite sub-references are shared with the input
(see `c1_counterexample`); clone-side independence holds only for the
composites visited exactly once. -/
theorem c1_copy_terminates_deepEqual :
    (∀ (s : Bool) (h : Heap) (v : JSVal), h.wfB = true →
       v.refBelow h.objs.length = true →
       ∃ v' h', copy s h v = some (v', h') ∧ deepEqual h' v' v = true) ∧
    (∀ (s : Bool) (f : Nat) (st : CopySt) (a : Addr), st.cache.contains a = true →
       handleCopy s (f + 1) (.ref a) st = some (.ref a, st)) := by
  constructor
  · intro s h v hwf hv
    obtain ⟨v', h', hrun, hext, hwf', hrb, heqp⟩ := copy_spec s h v hwf hv
    exact ⟨v', h', hrun,
      heqp h' (heapExtends_refl _) hwf' _ [] [] (eqMeasure_top h')⟩
  · intro s f st a hc
    rw [handleCopy_ref, if_pos hc]

/-- Witness for C1 at the self-cyclic object: cloning terminates and the
clone is accepted as deep-equal to the original. -/
theorem c1_witness :
    ∃ v' h', copy false hCyc (.ref 0) = some (v', h') ∧
      deepEqual h' v' (.ref 0) = true :=
  c1_copy_terminates_deepEqual.1 false hCyc (.ref 0) (by decide) (by decide)

/-- C1 counterexample: cloning the self-cyclic object of `hCyc` yields a
clone at address 1 whose `self` field is `ref 0` — the ORIGINAL object.
The clone therefore shares a composite sub-reference with the input, and
the cycle is not reproduced as a cycle among cloned nodes: its back-edge
points into the original.  This refutes the claim's "shares no composite
sub-reference" and "back-references point at cloned nodes" conjuncts. -/
theorem c1_counterexample :
    copy false hCyc (.ref 0) =
      some (.ref 1, ⟨[.plain [("self", .ref 0)], .plain [("self", .ref 0)]]⟩) ∧
    JSVal.ref 1 ≠ JSVal.ref 0 := by
  decide

/-! ## Step equations of the filter -/

theorem stepNext_select_error {H α E : Type} (ops : DistinctOps H α E)
    (st : DState α) (h : H) (v : α) (e : E) (h1 : H)
    (hsel : ops.select h v = (.error e, h1)) :
    stepNext ops st h v = (st, h1, .halt e) := by
  unfold stepNext
  rw [hsel]

theorem stepNext_select_ok {H α E : Type} (ops : DistinctOps H α E)
    (st : DState α) (h : H) (v k : α) (h1 : H)
    (hsel : ops.select h v = (.ok k, h1)) :
    stepNext ops st h v =
      if st.hasKey then
        match ops.comp h1 st.key k with
        | (.error e, h2) => (st, h2, .halt e)
        | (.ok result, h2) =>
          if result then (st, h2, .skip)
          else ((⟨true, (ops.clone h2 k).1⟩ : DState α), (ops.clone h2 k).2,
            .emit v)
      else ((⟨true, (ops.clone h1 k).1⟩ : DState α), (ops.clone h1 k).2,
        .emit v) := by
  unfold stepNext
  rw [hsel]

theorem stepNext_noKey {H α E : Type} (ops : DistinctOps H α E)
    (st : DState α) (h : H) (v k : α) (h1 : H)
    (hsel : ops.select h v = (.ok k, h1)) (hk : st.hasKey = false) :
    stepNext ops st h v =
      ((⟨true, (ops.clone h1 k).1⟩ : DState α), (ops.clone h1 k).2, .emit v) := by
  rw [stepNext_select_ok ops st h v k h1 hsel,
    if_neg (by rw [hk]; exact Bool.false_ne_true)]

theorem stepNext_comp_error {H α E : Type} (ops : DistinctOps H α E)
    (st : DState α) (h : H) (v k : α) (h1 : H) (e : E) (h2 : H)
    (hsel : ops.select h v = (.ok k, h1)) (hk : st.hasKey = true)
    (hcomp : ops.comp h1 st.key k = (.error e, h2)) :
    stepNext ops st h v = (st, h2, .halt e) := by
  rw [stepNext_select_ok ops st h v k h1 hsel, if_pos hk, hcomp]

theorem stepNext_comp_ok {H α E : Type} (ops : DistinctOps H α E)
    (st : DState α) (h : H) (v k : α) (h1 : H) (b : Bool) (h2 : H)
    (hsel : ops.select h v = (.ok k, h1)) (hk : st.hasKey = true)
    (hcomp : ops.comp h1 st.key k = (.ok b, h2)) :
    stepNext ops st h v =
      if b then (st, h2, .skip)
      else ((⟨true, (ops.clone h2 k).1⟩ : DState α), (ops.clone h2 k).2,
        .emit v) := by
  rw [stepNext_select_ok ops st h v k h1 hsel, if_pos hk, hcomp]

theorem runNext_cons_emit {H α E : Type} (ops : DistinctOps H α E)
    (st : DState α) (h : H) (v : α) (vs : List α) (st1 : DState α) (h1 : H)
    (w : α) (hstep : stepNext ops st h v = (st1, h1, .emit w)) :
    runNext ops st h (v :: vs) =
      (w :: (runNext ops st1 h1 vs).1, (runNext ops st1 h1 vs).2) := by
  conv_lhs => unfold runNext
  rw [hstep]

theorem runNext_cons_skip {H α E : Type} (ops : DistinctOps H α E)
    (st : DState α) (h : H) (v : α) (vs : List α) (st1 : DState α) (h1 : H)
    (hstep : stepNext ops st h v = (st1, h1, .skip)) :
    runNext ops st h (v :: vs) = runNext ops st1 h1 vs := by
  conv_lhs => unfold runNext
  rw [hstep]

theorem runNext_cons_halt {H α E : Type} (ops : DistinctOps H α E)
    (st : DState α) (h : H) (v : α) (vs : List α) (st1 : DState α) (h1 : H)
    (e : E) (hstep : stepNext ops st h v = (st1, h1, .halt e)) :
    runNext ops st h (v :: vs) = ([], st1, h1, some e) := by
  unfold runNext
  rw [hstep]

/-! ## Claims about the distinct filter -/

/-- C3: on a value arriving with no Retained Key yet (the first value),
if key extraction succeeds the filter unconditionally forwards the value
downstream, stores `clone(key)` as the Retained Key and moves to the
has-baseline state; the comparator is not consulted — the step's result
is independent of it. -/
theorem c3_first_value_unconditional_emit :
    ∀ (H α E : Type) (ops : DistinctOps H α E) (st : DState α) (h : H)
      (v k : α) (h1 : H),
      st.hasKey = false → ops.select h v = (.ok k, h1) →
      stepNext ops st h v =
        ((⟨true, (ops.clone h1 k).1⟩ : DState α), (ops.clone h1 k).2, .emit v) ∧
      (∀ c2, stepNext { ops with comp := c2 } st h v = stepNext ops st h v) := by
  intro H α E ops st h v k h1 hk hsel
  refine ⟨stepNext_noKey ops st h v k h1 hsel hk, fun c2 => ?_⟩
  rw [stepNext_noKey { ops with comp := c2 } st h v k h1 hsel hk,
    stepNext_noKey ops st h v k h1 hsel hk]

/-- C2: in the has-baseline state the comparator is consulted exactly at
`(st.key, k)` — the retained (previous) key as FIRST argument, the newly
extracted key as SECOND — and a `true` verdict means "duplicate" (the
value is dropped), `false` means the value is forwarded.  The two
concrete runs with the asymmetric integer comparator `(x, y) => x < y`
pin the order observationally: on `[5, 3]` the comparison is
`compare(5, 3) = false`, so `3` is forwarded (swapped arguments would
have dropped it); on `[3, 5]` it is `compare(3, 5) = true`, so `5` is
dropped. -/
theorem c2_comparator_order_and_true_drops :
    (∀ (H α E : Type) (ops : DistinctOps H α E) (st : DState α) (h : H)
       (v k : α) (h1 h2 : H) (b : Bool),
       st.hasKey = true → ops.select h v = (.ok k, h1) →
       ops.comp h1 st.key k = (.ok b, h2) →
       stepNext ops st h v =
         if b then (st, h2, .skip)
         else ((⟨true, (ops.clone h2 k).1⟩ : DState α), (ops.clone h2 k).2,
           .emit v)) ∧
    (runNext (intOps (fun x y => decide (x < y))) ⟨false, 0⟩ () [5, 3]).1 =
      [5, 3] ∧
    (runNext (intOps (fun x y => decide (x < y))) ⟨false, 0⟩ () [3, 5]).1 =
      [3] := by
  refine ⟨?_, by decide, by decide⟩
  intro H α E ops st h v k h1 h2 b hk hsel hcomp
  exact stepNext_comp_ok ops st h v k h1 b h2 hsel hk hcomp

/-- C5: in the has-baseline state, a comparator verdict of "equal"
(`true`) emits nothing and leaves the filter state — in particular the
Retained Key — exactly as it was; a verdict of "not equal" (`false`)
forwards the value and replaces the Retained Key with a clone of the
newly extracted key. -/
theorem c5_duplicate_drop_distinct_replace :
    ∀ (H α E : Type) (ops : DistinctOps H α E) (st : DState α) (h : H)
      (v k : α) (h1 h2 : H),
      st.hasKey = true → ops.select h v = (.ok k, h1) →
      ((ops.comp h1 st.key k = (.ok true, h2) →
          stepNext ops st h v = (st, h2, .skip)) ∧
       (ops.comp h1 st.key k = (.ok false, h2) →
          stepNext ops st h v =
            ((⟨true, (ops.clone h2 k).1⟩ : DState α), (ops.clone h2 k).2,
             .emit v))) := by
  intro H α E ops st h v k h1 h2 hk hsel
  constructor
  · intro hcomp
    rw [stepNext_comp_ok ops st h v k h1 true h2 hsel hk hcomp, if_pos rfl]
  · intro hcomp
    rw [stepNext_comp_ok ops st h v k h1 false h2 hsel hk hcomp,
      if_neg Bool.false_ne_true]

/-- C7: with the caller-supplied comparator `(x, y) => y % 2 === 0` and
no key selector, the input sequence 1,2,3,4,5,6 makes the filter emit
exactly the values 1, 3, 5, in that order. -/
theorem c7_even_successor_comparator :
    (runNext evenSndOps ⟨false, .undef⟩ ⟨[]⟩
      [.num 1, .num 2, .num 3, .num 4, .num 5, .num 6]).1 =
      [.num 1, .num 3, .num 5] := by
  decide

/-- C9: a step that does not accept its value (a drop, or an error)
returns the filter state untouched: the Retained Key stays the very same
object and no re-clone happens (`copy` runs only in the accepting
branch).  The concrete run makes this observable: with a comparator that
MUTATES its first argument (bumping the `n` field of the object it is
handed) and always answers "duplicate", feeding the same object three
times yields one emission, a heap with exactly one clone — allocated at
acceptance time — and that clone ending at `n = 2`: both comparisons
received the same clone object by reference, and the first call's
mutation persisted into the second call's view. -/
theorem c9_retained_key_identity_and_mutation :
    (∀ (H α E : Type) (ops : DistinctOps H α E) (st : DState α) (h : H)
       (v : α) (st1 : DState α) (h1 : H) (o : StepOut α E),
       stepNext ops st h v = (st1, h1, o) →
       (o = .skip ∨ ∃ e, o = .halt e) → st1 = st) ∧
    runNext mutOps ⟨false, .undef⟩ hMut [.ref 0, .ref 0, .ref 0] =
      ([.ref 0], ⟨true, .ref 1⟩,
        ⟨[.plain [("n", .num 0)], .plain [("n", .num 2)]]⟩, none) := by
  constructor
  · intro H α E ops st h v st1 h1 o heq ho
    rcases hsel : ops.select h v with ⟨exc, hs⟩
    cases exc with
    | error e =>
      rw [stepNext_select_error ops st h v e hs hsel] at heq
      injection heq with e1 e2
      exact e1.symm
    | ok k =>
      cases hk : st.hasKey with
      | false =>
        rw [stepNext_noKey ops st h v k hs hsel hk] at heq
        injection heq with e1 e2
        injection e2 with e3 e4
        rcases ho with h5 | ⟨e6, h5⟩ <;> rw [← e4] at h5 <;> cases h5
      | true =>
        rcases hcomp : ops.comp hs st.key k with ⟨exc2, hs2⟩
        cases exc2 with
        | error e =>
          rw [stepNext_comp_error ops st h v k hs e hs2 hsel hk hcomp] at heq
          injection heq with e1 e2
          exact e1.symm
        | ok b =>
          cases b with
          | true =>
            rw [stepNext_comp_ok ops st h v k hs true hs2 hsel hk hcomp,
              if_pos rfl] at heq
            injection heq with e1 e2
            exact e1.symm
          | false =>
            rw [stepNext_comp_ok ops st h v k hs false hs2 hsel hk hcomp,
              if_neg Bool.false_ne_true] at heq
            injection heq with e1 e2
            injection e2 with e3 e4
            rcases ho with h5 | ⟨e6, h5⟩ <;> rw [← e4] at h5 <;> cases h5
  · decide

theorem runNext_append {H α E : Type} (ops : DistinctOps H α E) :
    ∀ (xs ys : List α) (st : DState α) (h : H) (out : List α)
      (st1 : DState α) (h1 : H),
      runNext ops st h xs = (out, st1, h1, none) →
      runNext ops st h (xs ++ ys) =
        (out ++ (runNext ops st1 h1 ys).1, (runNext ops st1 h1 ys).2) := by
  intro xs
  induction xs with
  | nil =>
    intro ys st h out st1 h1 heq
    have heq2 : (([], st, h, none) : List α × DState α × H × Option E) =
        (out, st1, h1, none) := heq
    injection heq2 with e1 e2
    injection e2 with e3 e4
    injection e4 with e5 e6
    subst e1
    subst e3
    subst e5
    exact rfl
  | cons v vs ih =>
    intro ys st h out st1 h1 heq
    rcases hstep : stepNext ops st h v with ⟨stA, hA, oA⟩
    cases oA with
    | emit w =>
      rw [runNext_cons_emit ops st h v vs stA hA w hstep] at heq
      rcases hr : runNext ops stA hA vs with ⟨o1, s1, hh1, e0⟩
      rw [hr] at heq
      injection heq with e1 e2
      injection e2 with e3 e4
      injection e4 with e5 e6
      subst e1
      subst e3
      subst e5
      subst e6
      rw [List.cons_append,
        runNext_cons_emit ops st h v (vs ++ ys) stA hA w hstep,
        ih ys stA hA o1 s1 hh1 hr]
      exact rfl
    | skip =>
      rw [runNext_cons_skip ops st h v vs stA hA hstep] at heq
      rw [List.cons_append,
        runNext_cons_skip ops st h v (vs ++ ys) stA hA hstep,
        ih ys stA hA out st1 h1 heq]
    | halt e =>
      rw [runNext_cons_halt ops st h v vs stA hA e hstep] at heq
      injection heq with e1 e2
      injection e2 with e3 e4
      injection e4 with e5 e6
      exact Option.noConfusion e6

/-- C4: if a value makes the key selector throw, or makes the comparator
throw after successful key extraction, the downstream consumer receives
exactly the previously accepted values followed by the propagated error
as the terminal event: the in-flight value is suppressed, the filter
state — in particular the Retained Key — is left unchanged by the failing
step, and no later upstream value is processed or emitted. -/
theorem c4_error_propagation {H α E : Type} (ops : DistinctOps H α E)
    (st0 : DState α) (h0 : H) (xs : List α) (bad : α) (ys : List α)
    (out : List α) (st1 : DState α) (h1 : H) (e : E)
    (hpre : runNext ops st0 h0 xs = (out, st1, h1, none))
    (hbad : (ops.select h1 bad).1 = Except.error e ∨
      ∃ k h2, ops.select h1 bad = (Except.ok k, h2) ∧ st1.hasKey = true ∧
        (ops.comp h2 st1.key k).1 = Except.error e) :
    ∃ h3, runNext ops st0 h0 (xs ++ bad :: ys) = (out, st1, h3, some e) := by
  have happ := runNext_append ops xs (bad :: ys) st0 h0 out st1 h1 hpre
  rcases hbad with hsel1 | ⟨k, h2, hsel2, hk, hcomp1⟩
  · rcases hsel : ops.select h1 bad with ⟨exc, hs⟩
    rw [hsel] at hsel1
    have hsel1b : exc = Except.error e := hsel1
    subst hsel1b
    have hhalt := runNext_cons_halt ops st1 h1 bad ys st1 hs e
      (stepNext_select_error ops st1 h1 bad e hs hsel)
    refine ⟨hs, ?_⟩
    rw [happ, hhalt, List.append_nil]
  · rcases hcomp : ops.comp h2 st1.key k with ⟨exc2, hs2⟩
    rw [hcomp] at hcomp1
    have hcomp1b : exc2 = Except.error e := hcomp1
    subst hcomp1b
    have hhalt := runNext_cons_halt ops st1 h1 bad ys st1 hs2 e
      (stepNext_comp_error ops st1 h1 bad k h2 e hs2 hsel2 hk hcomp)
    refine ⟨hs2, ?_⟩
    rw [happ, hhalt, List.append_nil]

/-- Witness for C4: the key selector of `throwOps` throws (error 7) on
the value 42; after the prefix `[1, 2, 2]` (whose accepted values are
`[1, 2]`), the run over `[1, 2, 2] ++ 42 :: [5]` delivers `[1, 2]`, then
the error as terminal, and nothing from the suffix `[5]`. -/
theorem c4_witness :
    ∃ h3, runNext throwOps ⟨false, 0⟩ () ([1, 2, 2] ++ 42 :: [5]) =
      ([1, 2], ⟨true, 2⟩, h3, some 7) :=
  c4_error_propagation throwOps ⟨false, 0⟩ () [1, 2, 2] 42 [5] [1, 2]
    ⟨true, 2⟩ () 7 (by decide) (Or.inl rfl)

/-- In the has-baseline state, the default operator drops every repeat of
a value that the (current) deep-equality check accepts against the
retained key, leaving state and heap untouched. -/
theorem runNext_skipAll (m : Nat) (k v : JSVal) (h : Heap)
    (hdup : deepEqual h k v = true) :
    runNext jsOps ⟨true, k⟩ h (List.replicate m v) = ([], ⟨true, k⟩, h, none) := by
  induction m with
  | zero => rfl
  | succ n ih =>
    rw [List.replicate_succ]
    have hcomp : jsOps.comp h (⟨true, k⟩ : DState JSVal).key v = (.ok true, h) := by
      show ((.ok (deepEqual h k v), h) : (Except Unit Bool) × Heap) = (.ok true, h)
      rw [hdup]
    have hstep : stepNext jsOps ⟨true, k⟩ h v = (⟨true, k⟩, h, .skip) := by
      rw [stepNext_comp_ok jsOps ⟨true, k⟩ h v v h true h rfl rfl hcomp,
        if_pos rfl]
    rw [runNext_cons_skip jsOps ⟨true, k⟩ h v (List.replicate n v) ⟨true, k⟩ h
      hstep, ih]

/-- C6: with the default deep-equality comparator and no key selector,
any constant value `v` (over a well-formed heap) repeated `n ≥ 1` times
with no other values produces exactly one emission — the value `v`
itself — followed by the source's terminal signal, whatever it is.  The
repeats are dropped because the clone stored at acceptance is accepted by
the deep-equality engine against every later extraction of `v`
(`copy_spec`). -/
theorem c6_constant_run_single_emission (h : Heap) (v : JSVal) (n : Nat)
    (hwf : h.wfB = true) (hv : v.refBelow h.objs.length = true) (hn : 1 ≤ n) :
    ∀ t : Terminal Unit,
      runStream jsOps ⟨false, .undef⟩ h (List.replicate n v) t = ([v], t) := by
  intro t
  obtain ⟨m, rfl⟩ : ∃ m, n = m + 1 := ⟨n - 1, by omega⟩
  obtain ⟨v1, h1, hcopy, hext, hwf1, hrb1, heqp⟩ := copy_spec false h v hwf hv
  have hclone : jsOps.clone h v = (v1, h1) := by
    show jsClone false h v = (v1, h1)
    unfold jsClone
    rw [hcopy]
  have hdup : deepEqual h1 v1 v = true :=
    heqp h1 (heapExtends_refl _) hwf1 _ [] [] (eqMeasure_top h1)
  have hstep1 : stepNext jsOps ⟨false, .undef⟩ h v = (⟨true, v1⟩, h1, .emit v) := by
    rw [stepNext_noKey jsOps ⟨false, .undef⟩ h v v h rfl rfl, hclone]
  rw [List.replicate_succ]
  have hrun : runNext jsOps ⟨false, .undef⟩ h (v :: List.replicate m v) =
      ([v], ⟨true, v1⟩, h1, none) := by
    rw [runNext_cons_emit jsOps ⟨false, .undef⟩ h v (List.replicate m v)
      ⟨true, v1⟩ h1 v hstep1, runNext_skipAll m v1 v h1 hdup]
  unfold runStream
  rw [hrun]

/-- Witness for C6: the plain object at address 0 of `hMut` emitted three
times yields exactly one emission and then the source's completion. -/
theorem c6_witness :
    runStream jsOps ⟨false, .undef⟩ hMut (List.replicate 3 (.ref 0))
      Terminal.complete = ([.ref 0], Terminal.complete) :=
  c6_constant_run_single_emission hMut (.ref 0) 3 (by decide) (by decide)
    (by decide) Terminal.complete

/-- Witness for C2: a concrete has-baseline step — comparator answers
`false` at `(5, 3)`, so the value 3 is forwarded and 3 becomes the
retained key. -/
theorem c2_witness :
    stepNext (intOps (fun x y => decide (x < y))) ⟨true, 5⟩ () 3 =
      if false then ((⟨true, 5⟩ : DState Int), (), .skip)
      else ((⟨true, 3⟩ : DState Int), (), .emit 3) :=
  c2_comparator_order_and_true_drops.1 Unit Int Unit
    (intOps (fun x y => decide (x < y))) ⟨true, 5⟩ () 3 3 () () false rfl rfl rfl

/-- Witness for C3: a first value is forwarded with the comparator never
consulted. -/
theorem c3_witness :
    stepNext (intOps (fun x y => decide (x < y))) ⟨false, 0⟩ () 9 =
        ((⟨true, 9⟩ : DState Int), (), .emit 9) ∧
      (∀ c2, stepNext { intOps (fun x y => decide (x < y)) with comp := c2 }
          ⟨false, 0⟩ () 9 =
        stepNext (intOps (fun x y => decide (x < y))) ⟨false, 0⟩ () 9) :=
  c3_first_value_unconditional_emit Unit Int Unit
    (intOps (fun x y => decide (x < y))) ⟨false, 0⟩ () 9 9 () rfl rfl

/-- Witness for C5: a duplicate (comparator `true`) is dropped with the
state intact. -/
theorem c5_witness :
    stepNext (intOps (fun x y => decide (x = y))) ⟨true, 4⟩ () 4 =
      ((⟨true, 4⟩ : DState Int), (), .skip) :=
  (c5_duplicate_drop_distinct_replace Unit Int Unit
    (intOps (fun x y => decide (x = y))) ⟨true, 4⟩ () 4 4 () () rfl rfl).1 rfl

/-- Witness for C9: a dropping step leaves the state (hence the retained
key object) untouched. -/
theorem c9_witness :
    (stepNext (intOps (fun x y => decide (x = y))) ⟨true, 4⟩ () 4).1 =
      ⟨true, 4⟩ :=
  c9_retained_key_identity_and_mutation.1 Unit Int Unit
    (intOps (fun x y => decide (x = y))) ⟨true, 4⟩ () 4
    (stepNext (intOps (fun x y => decide (x = y))) ⟨true, 4⟩ () 4).1
    (stepNext (intOps (fun x y => decide (x = y))) ⟨true, 4⟩ () 4).2.1
    (stepNext (intOps (fun x y => decide (x = y))) ⟨true, 4⟩ () 4).2.2
    rfl (Or.inl rfl)
